import Mathlib

/-!
# Verification of the `kvs` Bitcask-style storage engine

A shallow embedding, in Lean 4, of the core of the `kvs` repository:

* `src/kvs/src/entry.rs`   — the on-disk record codec (CRC32 prefix, sizes, payloads);
* `src/kvs/src/engines/kvs.rs` — the `KvStore` engine: keydir, `set`/`get`/`remove`,
  recovery (`load`, `open`), compaction (`compact`), `sorted_gen_list`;
* `src/kvs/src/server.rs` and `src/kvs/src/response.rs` — the wire protocol framing
  for GET responses.

Byte strings are modelled as `List Nat` (each element a byte value `< 256`);
Rust `String`s are modelled as their UTF-8 byte lists, with validity expressed by
`validUtf8`.  File contents are byte lists; the set of generation files is an
association list from generation number to file content.  Machine integers are
modelled as `Nat` with explicit `% 2 ^ 32` at the points where the source
truncates (`as u32` casts).  Rust panics (from `assert_eq!` and `.expect`) are made
explicit as dedicated outcome constructors or `Option.none` results, and are
distinguished from error values that Rust returns to the caller.
-/

set_option autoImplicit false
set_option maxRecDepth 1000000

namespace Kvs

/-! ## Bytes and 32-bit integers -/

/-- 32-bit exclusive or, computed bit by bit with division and remainder
(`fuel` counts the bits still to process).  Models `u32` xor. -/
def xorBits : Nat → Nat → Nat → Nat
  | 0, _, _ => 0
  | fuel + 1, a, b => (a + b) % 2 + 2 * xorBits fuel (a / 2) (b / 2)

/-- Exclusive or of two 32-bit words. -/
def xor32 (a b : Nat) : Nat := xorBits 32 a b

/-- `u32::to_ne_bytes` on a little-endian host: the four bytes of `n`,
least significant first. -/
def le32 (n : Nat) : List Nat :=
  [n % 256, n / 256 % 256, n / 65536 % 256, n / 16777216 % 256]

/-- `u32::to_be_bytes`: the four bytes of `n`, most significant first. -/
def be32 (n : Nat) : List Nat :=
  [n / 16777216 % 256, n / 65536 % 256, n / 256 % 256, n % 256]

/-- `u32::from_ne_bytes` on a little-endian host (expects a 4-byte list). -/
def leToNat (bs : List Nat) : Nat :=
  match bs with
  | [b0, b1, b2, b3] => b0 + 256 * b1 + 65536 * b2 + 16777216 * b3
  | _ => 0

/-- `u32::from_be_bytes` (expects a 4-byte list). -/
def beToNat (bs : List Nat) : Nat :=
  match bs with
  | [b3, b2, b1, b0] => b0 + 256 * b1 + 65536 * b2 + 16777216 * b3
  | _ => 0

/-! ## CRC32 (the `crc32fast::Hasher`, i.e. CRC-32/ISO-HDLC) -/

/-- One bit step of the reflected CRC-32 algorithm with polynomial
`0xEDB88320`. -/
def crcRound (c : Nat) : Nat :=
  if c % 2 = 1 then xor32 (c / 2) 0xEDB88320 else c / 2

/-- `n` bit steps. -/
def crcRounds : Nat → Nat → Nat
  | 0, c => c
  | n + 1, c => crcRounds n (crcRound c)

/-- Feed one byte into the CRC state. -/
def crcByte (c b : Nat) : Nat := crcRounds 8 (xor32 c (b % 256))

/-- CRC-32 of a byte list, as computed by `crc32fast::Hasher` (init
`0xFFFFFFFF`, final xor `0xFFFFFFFF`, reflected, polynomial `0xEDB88320`). -/
def crc32 (bytes : List Nat) : Nat :=
  xor32 (bytes.foldl crcByte 0xFFFFFFFF) 0xFFFFFFFF

/-! ## UTF-8 validity (`String::from_utf8` succeeds) -/

/-- Is `b` a UTF-8 continuation byte (`0x80 ..= 0xBF`)? -/
def isCont (b : Nat) : Bool := 128 ≤ b && b ≤ 191

/-- Lower bound for the second byte of a multi-byte UTF-8 sequence led by `b1`. -/
def utf8Lo (b1 : Nat) : Nat :=
  if b1 = 0xE0 then 0xA0 else if b1 = 0xF0 then 0x90 else 0x80

/-- Upper bound for the second byte of a multi-byte UTF-8 sequence led by `b1`. -/
def utf8Hi (b1 : Nat) : Nat :=
  if b1 = 0xED then 0x9F else if b1 = 0xF4 then 0x8F else 0xBF

/-- Does the byte list form valid UTF-8?  Models `String::from_utf8(..).is_ok()`. -/
def validUtf8 : List Nat → Bool
  | [] => true
  | b1 :: rest =>
    if b1 < 0x80 then validUtf8 rest
    else if 0xC2 ≤ b1 ∧ b1 ≤ 0xDF then
      match rest with
      | b2 :: r => isCont b2 && validUtf8 r
      | [] => false
    else if 0xE0 ≤ b1 ∧ b1 ≤ 0xEF then
      match rest with
      | b2 :: b3 :: r =>
        (utf8Lo b1 ≤ b2 && b2 ≤ utf8Hi b1) && isCont b3 && validUtf8 r
      | _ => false
    else if 0xF0 ≤ b1 ∧ b1 ≤ 0xF4 then
      match rest with
      | b2 :: b3 :: b4 :: r =>
        (utf8Lo b1 ≤ b2 && b2 ≤ utf8Hi b1) && isCont b3 && isCont b4 && validUtf8 r
      | _ => false
    else false

/-! ## The record codec (`src/kvs/src/entry.rs`) -/

/-- `entry::PREFIX_SIZE`. -/
def PREFIX_SIZE : Nat := 12

/-- `kvs::Entry`: a log record.  `value = none` is the tombstone. -/
structure Entry where
  key : List Nat
  value : Option (List Nat)
  crc32 : Nat
  key_size : Nat
  value_size : Nat
  deriving Repr, DecidableEq

/-- `entry::as_bytes(key_size, value_size, key, value)`: the CRC-covered
region — native-endian (little-endian) sizes followed by the payloads. -/
def as_bytes (key_size value_size : Nat) (key : List Nat) (value : Option (List Nat)) :
    List Nat :=
  le32 key_size ++ le32 value_size ++ key ++ value.getD []

/-- `entry::generate_crc32`. -/
def generate_crc32 (key_size value_size : Nat) (key : List Nat)
    (value : Option (List Nat)) : Nat :=
  crc32 (as_bytes key_size value_size key value)

/-- `Entry::new`: sizes are `len() as u32` (hence `% 2 ^ 32`), CRC over
`as_bytes`. -/
def Entry.new (key : List Nat) (value : Option (List Nat)) : Entry :=
  let key_size := key.length % 4294967296
  let value_size := (value.getD []).length % 4294967296
  { key, value, crc32 := generate_crc32 key_size value_size key value, key_size, value_size }

/-- `Entry::set`. -/
def Entry.set (key value : List Nat) : Entry := Entry.new key (some value)

/-- `Entry::remove` — `None` serves as the tombstone value. -/
def Entry.remove (key : List Nat) : Entry := Entry.new key none

/-- `Entry::as_durable_bytes`: big-endian CRC32 followed by `as_bytes`. -/
def Entry.as_durable_bytes (e : Entry) : List Nat :=
  be32 e.crc32 ++ as_bytes e.key_size e.value_size e.key e.value

/-- The outcome of `entry::from_reader`.  Rust's `assert_eq!` on the CRC is a
panic, not a returned error; it gets its own constructor, distinct from the
error values (`KvsError::Io` from `read_exact`, `KvsError::FromUtf8` from
`String::from_utf8`) that are returned to the caller via `?`. -/
inductive DecodeOutcome where
  /-- `Ok(Entry { .. })`. -/
  | ok (e : Entry)
  /-- `Err(KvsError::Io(..))` — `read_exact` hit end of input. -/
  | ioError
  /-- `Err(KvsError::FromUtf8(..))` — a payload is not valid UTF-8. -/
  | utf8Error
  /-- The `assert_eq!(crc32, generate_crc32(..))` failed: the process panics. -/
  | assertPanic
  deriving Repr, DecidableEq

/-- `entry::from_reader`, reading from the byte list `input` (the bytes the
supplied reader can still produce, e.g. already limited by `take(len)`). -/
def from_reader (input : List Nat) : DecodeOutcome :=
  if input.length < PREFIX_SIZE then .ioError
  else
    let crcStored := beToNat (input.take 4)
    let key_size := leToNat ((input.drop 4).take 4)
    let value_size := leToNat ((input.drop 8).take 4)
    let payload := input.drop PREFIX_SIZE
    if payload.length < key_size + value_size then .ioError
    else
      let bytes := payload.take (key_size + value_size)
      let keyBytes := bytes.take key_size
      let valueBytes := (bytes.drop key_size).take value_size
      if ¬ validUtf8 keyBytes then .utf8Error
      else if ¬ validUtf8 valueBytes then .utf8Error
      else
        let value : Option (List Nat) := if valueBytes.length = 0 then none else some valueBytes
        if crcStored = generate_crc32 key_size value_size keyBytes value then
          .ok { key := keyBytes, value, crc32 := crcStored, key_size, value_size }
        else .assertPanic

/-! ## The keydir (`BTreeMap<String, EntryPos>`)

Keys are UTF-8 byte lists; `BTreeMap<String, _>` iterates in lexicographic byte
order, so the keydir is modelled as an association list kept sorted by the
strict lexicographic order `keyLt`. -/

/-- `EntryPos { gen, pos, len }`. -/
structure EntryPos where
  gen : Nat
  pos : Nat
  len : Nat
  deriving Repr, DecidableEq

/-- Strict lexicographic order on byte lists — the order of `String` in Rust. -/
def keyLt : List Nat → List Nat → Bool
  | [], [] => false
  | [], _ :: _ => true
  | _ :: _, [] => false
  | a :: as, b :: bs => if a < b then true else if a = b then keyLt as bs else false

/-- The in-memory index. -/
abbrev KeyDir := List (List Nat × EntryPos)

/-- `BTreeMap::get`. -/
def kdLookup : KeyDir → List Nat → Option EntryPos
  | [], _ => none
  | (k', ep) :: rest, k => if k = k' then some ep else kdLookup rest k

/-- `BTreeMap::insert`, returning the new map and the displaced old value. -/
def kdInsert : KeyDir → List Nat → EntryPos → KeyDir × Option EntryPos
  | [], k, ep => ([(k, ep)], none)
  | (k', ep') :: rest, k, ep =>
    if keyLt k k' then ((k, ep) :: (k', ep') :: rest, none)
    else if k = k' then ((k, ep) :: rest, some ep')
    else
      let r := kdInsert rest k ep
      ((k', ep') :: r.1, r.2)

/-- `BTreeMap::remove`, returning the new map and the removed value. -/
def kdRemove : KeyDir → List Nat → KeyDir × Option EntryPos
  | [], _ => ([], none)
  | (k', ep') :: rest, k =>
    if k = k' then (rest, some ep')
    else
      let r := kdRemove rest k
      ((k', ep') :: r.1, r.2)

/-! ## Generation files

The engine owns one file per generation (`readers` plus the on-disk files,
which agree after every flush).  They are modelled as a single association
list from generation number to file content, kept sorted by generation. -/

/-- Generation number → file content. -/
abbrev Files := List (Nat × List Nat)

/-- Content of generation `gen`, when that file exists. -/
def fLookup : Files → Nat → Option (List Nat)
  | [], _ => none
  | (g, c) :: rest, gen => if gen = g then some c else fLookup rest gen

/-- Write the full content of generation `gen` (insert sorted by generation). -/
def fSet : Files → Nat → List Nat → Files
  | [], gen, c => [(gen, c)]
  | (g, c') :: rest, gen, c =>
    if gen < g then (gen, c) :: (g, c') :: rest
    else if gen = g then (gen, c) :: rest
    else (g, c') :: fSet rest gen c

/-- `new_log_file` for a writer: `create(true).append(true)` keeps the content
of an existing file and creates an empty one otherwise. -/
def ensureFile (files : Files) (gen : Nat) : Files :=
  match fLookup files gen with
  | some _ => files
  | none => fSet files gen []

/-- The `len` bytes of `file` starting at offset `pos` (a seek followed by a
`take(len)`-limited read). -/
def extract (file : List Nat) (pos len : Nat) : List Nat := (file.drop pos).take len

/-! ## The engine (`src/kvs/src/engines/kvs.rs`) -/

/-- `COMPACTION_THRESHOLD` — 1 MiB. -/
def COMPACTION_THRESHOLD : Nat := 1048576

/-- The state of `KvStore`.  The writer position is not stored separately: the
current generation's file always starts empty, so `writer.pos` equals its
length at every flush point. -/
structure KvStore where
  files : Files
  keydir : KeyDir
  current_gen : Nat
  uncompacted : Nat
  deriving Repr, DecidableEq

/-- Append bytes to the current generation's file (`to_writer` + `flush`). -/
def appendCurrent (s : KvStore) (bytes : List Nat) : KvStore :=
  { s with
    files := fSet s.files s.current_gen ((fLookup s.files s.current_gen).getD [] ++ bytes) }

/-- One iteration of the copy loop in `KvStore::compact`: the accumulator is
(rebuilt keydir, bytes written to the compaction file, `new_pos`).  A missing
reader is the `.expect("Cannot find log reader")` panic, hence `none`. -/
def compactStep (files : Files) (compaction_gen : Nat)
    (acc : KeyDir × List Nat × Nat) (e : List Nat × EntryPos) :
    Option (KeyDir × List Nat × Nat) :=
  match fLookup files e.2.gen with
  | none => none
  | some f =>
    let copied := extract f e.2.pos e.2.len
    some (acc.1 ++ [(e.1, ⟨compaction_gen, acc.2.2, copied.length⟩)],
          acc.2.1 ++ copied, acc.2.2 + copied.length)

/-- `KvStore::compact`.  `none` is a panic of the copy loop. -/
def KvStore.compact (s : KvStore) : Option KvStore :=
  let compaction_gen := s.current_gen + 1
  let files1 := ensureFile s.files (s.current_gen + 2)
  let files2 := ensureFile files1 compaction_gen
  match s.keydir.foldlM (compactStep files2 compaction_gen) ([], [], 0) with
  | none => none
  | some (kd, outBytes, _) =>
    let base := (fLookup files2 compaction_gen).getD []
    let files3 := fSet files2 compaction_gen (base ++ outBytes)
    let files4 := files3.filter (fun p => decide (compaction_gen ≤ p.1))
    some { files := files4, keydir := kd,
           current_gen := s.current_gen + 2, uncompacted := 0 }

/-- `KvStore::set`.  `none` is a panic inside the triggered compaction. -/
def KvStore.set (s : KvStore) (key value : List Nat) : Option KvStore :=
  let entry := Entry.set key value
  let pos := ((fLookup s.files s.current_gen).getD []).length
  let s1 := appendCurrent s entry.as_durable_bytes
  let ins := kdInsert s1.keydir key ⟨s.current_gen, pos, entry.as_durable_bytes.length⟩
  let uncompacted := s1.uncompacted + (match ins.2 with | some old => old.len | none => 0)
  let s2 : KvStore := { s1 with keydir := ins.1, uncompacted := uncompacted }
  if COMPACTION_THRESHOLD < uncompacted then s2.compact else some s2

/-- The outcome of `KvStore::get`. -/
inductive GetResult where
  /-- `Ok(value)` — `none` when the key is absent from the keydir. -/
  | ok (v : Option (List Nat))
  /-- The `.expect("Cannot find log reader")` panic. -/
  | panicNoReader
  /-- `Err(KvsError::Io(..))` from decoding. -/
  | ioError
  /-- `Err(KvsError::FromUtf8(..))` from decoding. -/
  | utf8Error
  /-- The CRC `assert_eq!` panic inside `entry::from_reader`. -/
  | assertPanic
  deriving Repr, DecidableEq

/-- `KvStore::get`. -/
def KvStore.get (s : KvStore) (key : List Nat) : GetResult :=
  match kdLookup s.keydir key with
  | none => .ok none
  | some ep =>
    match fLookup s.files ep.gen with
    | none => .panicNoReader
    | some f =>
      match from_reader (extract f ep.pos ep.len) with
      | .ok e => .ok e.value
      | .ioError => .ioError
      | .utf8Error => .utf8Error
      | .assertPanic => .assertPanic

/-- The outcome of `KvStore::remove`. -/
inductive RemoveResult where
  /-- `Ok(())`, with the updated store. -/
  | ok (s : KvStore)
  /-- `Err(KvsError::KeyNotFound)`; the store is unchanged. -/
  | keyNotFound
  deriving Repr, DecidableEq

/-- `KvStore::remove`.  When the key is missing nothing is written and
`KeyNotFound` is returned; the `&mut self` state is untouched. -/
def KvStore.remove (s : KvStore) (key : List Nat) : RemoveResult :=
  if (kdLookup s.keydir key).isSome then
    let entry := Entry.remove key
    let s1 := appendCurrent s entry.as_durable_bytes
    let rem := kdRemove s1.keydir key
    let oldLen := match rem.2 with | some old => old.len | none => 0
    .ok { s1 with keydir := rem.1, uncompacted := s1.uncompacted + oldLen }
  else .keyNotFound

/-! ## Recovery (`load`, `sorted_gen_list`, `KvStore::open`) -/

/-- The scan loop of `load`: peek a byte (loop while `pos < file.length`),
read and parse the 12-byte prefix, re-read the whole record through
`entry::from_reader`, update the keydir, seek to `new_pos`.  `none` models an
aborted `open` (an I/O or UTF-8 error returned through `?`, or the CRC assert
panic).  The loop advances `pos` by at least `PREFIX_SIZE` per iteration, so
any `fuel` exceeding the bytes remaining makes the fuel-exhaustion branch
unreachable (`load` passes `file.length + 1`); `fuel` exists only to make the
recursion structural. -/
def loadLoop (gen : Nat) (file : List Nat) :
    Nat → Nat → KeyDir → Nat → Option (KeyDir × Nat)
  | 0, _, _, _ => none
  | fuel + 1, pos, kd, unc =>
    if pos < file.length then
      if file.length < pos + PREFIX_SIZE then none
      else
        let key_size := leToNat (extract file (pos + 4) 4)
        let value_size := leToNat (extract file (pos + 8) 4)
        match from_reader (extract file pos (PREFIX_SIZE + key_size + value_size)) with
        | .ok e =>
          match e.value with
          | some _ =>
            let ins := kdInsert kd e.key ⟨gen, pos, PREFIX_SIZE + key_size + value_size⟩
            loadLoop gen file fuel (pos + PREFIX_SIZE + key_size + value_size) ins.1
              (unc + (match ins.2 with | some old => old.len | none => 0))
          | none =>
            let rem := kdRemove kd e.key
            loadLoop gen file fuel (pos + PREFIX_SIZE + key_size + value_size) rem.1
              (unc + (match rem.2 with | some old => old.len | none => 0)
                   + (PREFIX_SIZE + key_size + value_size))
        | _ => none
    else some (kd, unc)

/-- `load(gen, reader, keydir)`: scan one generation file from offset 0. -/
def load (gen : Nat) (file : List Nat) (kd : KeyDir) : Option (KeyDir × Nat) :=
  loadLoop gen file (file.length + 1) 0 kd 0

/-- Insert into a sorted list of naturals. -/
def insNat (n : Nat) : List Nat → List Nat
  | [] => [n]
  | m :: rest => if n ≤ m then n :: m :: rest else m :: insNat n rest

/-- `sort_unstable` on a list of naturals (insertion sort, ascending). -/
def sortNat : List Nat → List Nat
  | [] => []
  | n :: rest => insNat n (sortNat rest)

/-- Scan the listed generations in order, threading the keydir and summing the
per-file `uncompacted` contributions, as the loop in `KvStore::open` does. -/
def loadAll (disk : Files) : List Nat → KeyDir → Nat → Option (KeyDir × Nat)
  | [], kd, unc => some (kd, unc)
  | g :: rest, kd, unc =>
    match load g ((fLookup disk g).getD []) kd with
    | none => none
    | some (kd', u) => loadAll disk rest kd' (unc + u)

/-- `KvStore::open`, starting from the files found in the data directory
(generation number → content).  The generation list is the sorted list of
the numbers present; `current_gen` is one past the last. -/
def openStore (disk : Files) : Option KvStore :=
  let gens := sortNat (disk.map Prod.fst)
  match loadAll disk gens [] 0 with
  | none => none
  | some (kd, unc) =>
    let current_gen := gens.getLast?.getD 0 + 1
    some { files := ensureFile disk current_gen, keydir := kd,
           current_gen := current_gen, uncompacted := unc }

/-- The engine produced by `open` on an empty directory. -/
def freshStore : KvStore :=
  { files := [(1, [])], keydir := [], current_gen := 1, uncompacted := 0 }

/-! ## Operation sequences (for the recovery-equivalence property) -/

/-- A public mutation. -/
inductive Op where
  | set (k v : List Nat)
  | remove (k : List Nat)
  deriving Repr, DecidableEq

/-- Apply one mutation.  A failed `remove` returns `KeyNotFound` to the caller
and leaves the store unchanged; a panic inside compaction is `none`. -/
def applyOp (s : KvStore) : Op → Option KvStore
  | .set k v => s.set k v
  | .remove k =>
    match s.remove k with
    | .ok s' => some s'
    | .keyNotFound => some s

/-- Replay a sequence of mutations on a fresh engine. -/
def runOps (ops : List Op) : Option KvStore := ops.foldlM applyOp freshStore

/-! ## File-name parsing in `sorted_gen_list` -/

/-- The characters after the last `'.'` of the list, if any
(helper for `Path::extension`). -/
def extAux : List Char → Option (List Char)
  | [] => none
  | c :: rest =>
    match extAux rest with
    | some e => some e
    | none => if c = '.' then some rest else none

/-- `Path::extension` on a file name: the part after the last `'.'`, except
that a leading `'.'` (hidden-file convention) does not begin an extension. -/
def extension? (name : List Char) : Option (List Char) :=
  match name with
  | [] => none
  | _ :: rest => extAux rest

/-- Strip every trailing `".log"` occurrence from a reversed character list. -/
def stripLogsRev : List Char → List Char
  | 'g' :: 'o' :: 'l' :: '.' :: rest => stripLogsRev rest
  | s => s

/-- `str::trim_end_matches(".log")`. -/
def trimEndDotLog (s : List Char) : List Char := (stripLogsRev s.reverse).reverse

/-- Decimal digit value of a character. -/
def digitVal? (c : Char) : Option Nat :=
  if '0' ≤ c ∧ c ≤ '9' then some (c.toNat - 48) else none

/-- Accumulate decimal digits; fails on a non-digit. -/
def parseDigitsAux : List Char → Nat → Option Nat
  | [], acc => some acc
  | c :: rest, acc =>
    match digitVal? c with
    | some d => parseDigitsAux rest (acc * 10 + d)
    | none => none

/-- `str::parse::<u64>`: an optional leading `'+'`, then one or more ASCII
digits, value below `2 ^ 64` (overflow is a parse error). -/
def parseU64 (s : List Char) : Option Nat :=
  let body := match s with | '+' :: rest => rest | _ => s
  match body with
  | [] => none
  | _ =>
    match parseDigitsAux body 0 with
    | some n => if n < 18446744073709551616 then some n else none
    | none => none

/-- The per-file-name step of `sorted_gen_list`: keep the name when its
extension is `log`, strip every trailing `".log"`, and parse the rest as
`u64`. -/
def parseGenName (name : List Char) : Option Nat :=
  if extension? name = some ['l', 'o', 'g'] then parseU64 (trimEndDotLog name) else none

/-- `sorted_gen_list`, applied to the file names found in the data
directory. -/
def sorted_gen_list (names : List (List Char)) : List Nat :=
  sortNat (names.filterMap parseGenName)

/-- Modelled from the spec: a name matching `^(\d+)\.log$` — one or more
decimal digits followed by the literal `".log"` — and its decimal value.
This is the spec's selection rule, to be compared with `parseGenName`. -/
def specGenName (name : List Char) : Option Nat :=
  if ['.', 'l', 'o', 'g'].isSuffixOf name then
    let stem := name.take (name.length - 4)
    if stem ≠ [] ∧ stem.all (fun c => decide ('0' ≤ c ∧ c ≤ '9')) then
      parseDigitsAux stem 0
    else none
  else none

/-- Zero or more copies of `".log"`. -/
def dotLogsStar : List Char → Bool
  | [] => true
  | '.' :: 'l' :: 'o' :: 'g' :: rest => dotLogsStar rest
  | _ => false

/-- One or more copies of `".log"`. -/
def dotLogsPlus : List Char → Bool
  | '.' :: 'l' :: 'o' :: 'g' :: rest => dotLogsStar rest
  | _ => false

/-- The pattern `sorted_gen_list` actually accepts: an optional `'+'`, one or
more decimal digits whose value fits in `u64`, then one or more `".log"`
suffixes.  (`^\+?(\d+)(\.log)+$`.) -/
def extGenName (name : List Char) : Option Nat :=
  let body := match name with | '+' :: rest => rest | _ => name
  let digits := body.takeWhile (fun c => decide ('0' ≤ c ∧ c ≤ '9'))
  let rest := body.dropWhile (fun c => decide ('0' ≤ c ∧ c ≤ '9'))
  if digits = [] then none
  else if dotLogsPlus rest then
    match parseDigitsAux digits 0 with
    | some n => if n < 18446744073709551616 then some n else none
    | none => none
  else none

/-! ## Wire protocol: GET responses (`server.rs` / `response.rs`) -/

/-- The bytes `KvsServer::serve` writes for a successful GET
(`"{value}\r\n"`, or the sentinel `"-1\r\n"` when the key is absent). -/
def serve_get_response (v : Option (List Char)) : List Char :=
  match v with
  | some value => value ++ ['\r', '\n']
  | none => ['-', '1', '\r', '\n']

/-- `BufRead::lines().next()`: `none` on empty input, otherwise the characters
up to (not including) the first `'\n'`, with a final `'\r'` stripped when a
`'\n'` was found. -/
def linesNext (input : List Char) : Option (List Char) :=
  if input.isEmpty then none
  else
    let raw := input.takeWhile (fun c => decide (c ≠ '\n'))
    some (if raw.length < input.length ∧ raw.getLast? = some '\r' then raw.dropLast else raw)

/-- The outcome of the client-side `response::from_reader`. -/
inductive RespResult where
  /-- `Ok(Some(..))` or `Ok(None)`. -/
  | ok (v : Option (List Char))
  /-- `Err(KvsError::String(..))` with the offending line or a fixed message. -/
  | err (msg : List Char)
  deriving Repr, DecidableEq

/-- `response::from_reader`: read one line; a line starting with `'!'` is an
error, the exact line `"-1"` is `Ok(None)`, anything else is `Ok(Some(line))`. -/
def response_from_reader (input : List Char) : RespResult :=
  match linesNext input with
  | none => .err ['M', 'a', 'l', 'f', 'o', 'r', 'm', 'e', 'd']
  | some resp =>
    if resp.head? = some '!' then .err resp
    else if resp = ['-', '1'] then .ok none
    else .ok (some resp)

/-! ## Replay specifications (verification infrastructure)

The state invariant for the recovery-equivalence proof: each generation file
is the concatenation of the durable encodings of a list of record
specifications, and the keydir equals the deterministic replay of those
records across ascending generations. -/

/-- A record as written: key and optional value (`none` = tombstone). -/
abbrev RecSpec := List Nat × Option (List Nat)

/-- The on-disk bytes of a record. -/
def recBytes (r : RecSpec) : List Nat := (Entry.new r.1 r.2).as_durable_bytes

/-- Well-formedness of a record written by the engine: the key (and the value
of a set) are valid UTF-8 `String`s whose lengths fit in `u32`, and a set's
value is non-empty (otherwise its encoding is a tombstone). -/
def WfRec (r : RecSpec) : Prop :=
  validUtf8 r.1 = true ∧ r.1.length < 4294967296 ∧
    validUtf8 (r.2.getD []) = true ∧ (r.2.getD []).length < 4294967296 ∧ r.2 ≠ some []

/-- Replay the records of one generation file in file order, tracking byte
offsets. -/
def replayFile (gen : Nat) : List RecSpec → Nat → KeyDir → KeyDir
  | [], _, kd => kd
  | r :: rest, pos, kd =>
    let len := (recBytes r).length
    match r.2 with
    | some _ => replayFile gen rest (pos + len) (kdInsert kd r.1 ⟨gen, pos, len⟩).1
    | none => replayFile gen rest (pos + len) (kdRemove kd r.1).1

/-- Replay every generation in listed (ascending) order. -/
def replayAll (frecs : List (Nat × List RecSpec)) (kd : KeyDir) : KeyDir :=
  frecs.foldl (fun kd p => replayFile p.1 p.2 0 kd) kd

/-- The reachable-state invariant tying a store to the record lists of its
generation files. -/
structure GoodInv (s : KvStore) (frecs : List (Nat × List RecSpec)) : Prop where
  shape : List.Forall₂
    (fun (f : Nat × List Nat) (fr : Nat × List RecSpec) =>
      f.1 = fr.1 ∧ f.2 = (fr.2.map recBytes).flatten ∧ ∀ r ∈ fr.2, WfRec r)
    s.files frecs
  sorted : List.Pairwise (· < ·) (s.files.map Prod.fst)
  bound : ∀ g ∈ s.files.map Prod.fst, g ≤ s.current_gen
  present : s.current_gen ∈ s.files.map Prod.fst
  replay : replayAll frecs [] = s.keydir

/-- A store is good when some record decomposition witnesses `GoodInv`. -/
def Good (s : KvStore) : Prop := ∃ frecs, GoodInv s frecs

/-- Well-formedness of one mutation, as guaranteed by the Rust types (`String`
keys and values, lengths in `u32`) plus a non-empty set value. -/
def OpWf : Op → Prop
  | .set k v => validUtf8 k = true ∧ k.length < 4294967296 ∧
      validUtf8 v = true ∧ v.length < 4294967296 ∧ v ≠ []
  | .remove _ => True

/-- The store of a successful `remove`, with a default for the failure case
(used to name concrete states in closed statements). -/
def removeD (r : RemoveResult) (dflt : KvStore) : KvStore :=
  match r with
  | .ok s => s
  | .keyNotFound => dflt

/-- A store sitting exactly at the compaction threshold
(`uncompacted = 1048576`, not above it, so no `set` would have compacted),
holding one live key.  `remove` reads only the keydir and the counter, so the
dead bytes themselves are elided from the file.  Such a counter value is
reachable — e.g. 64 overwrites of a key whose record is 16384 bytes long.
Used to exhibit a `remove` that pushes `uncompacted` past the threshold
without triggering compaction. -/
def C6state : KvStore :=
  { files := [(1, recBytes ([97], some [98]))],
    keydir := [([97], ⟨1, 0, 14⟩)],
    current_gen := 1,
    uncompacted := 1048576 }

/-- What a round trip through the codec preserves of an optional value: an
empty set value is indistinguishable from a tombstone (`value_size == 0` IS
the tombstone), so `some []` decodes back as `none`. -/
def normValue : Option (List Nat) → Option (List Nat)
  | some [] => none
  | ov => ov

/-- The keydir is strictly sorted by key, as a `BTreeMap` is. -/
def kdSorted (kd : KeyDir) : Prop :=
  List.Pairwise (fun a b => keyLt a.1 b.1 = true) kd

/-- The bytes the compaction copy loop writes: the concatenation of the
entries' byte ranges, in keydir order. -/
def compactedOut (files2 : Files) (entries : KeyDir) : List Nat :=
  (entries.map (fun p => extract ((fLookup files2 p.2.gen).getD []) p.2.pos p.2.len)).flatten

/-- The keydir the compaction copy loop builds: same keys in the same order,
each entry repointed into the compaction generation at the running offset. -/
def compactedKd (files2 : Files) (cgen : Nat) : KeyDir → Nat → KeyDir
  | [], _ => []
  | p :: rest, np =>
    (p.1, ⟨cgen, np,
      (extract ((fLookup files2 p.2.gen).getD []) p.2.pos p.2.len).length⟩) ::
      compactedKd files2 cgen rest
        (np + (extract ((fLookup files2 p.2.gen).getD []) p.2.pos p.2.len).length)

/-! # Theorems -/

/-! ## Bytes, CRC, codec -/

theorem le32_length (n : Nat) : (le32 n).length = 4 := rfl

theorem be32_length (n : Nat) : (be32 n).length = 4 := rfl

theorem leToNat_le32 {n : Nat} (h : n < 4294967296) : leToNat (le32 n) = n := by
  simp only [le32, leToNat]
  omega

theorem beToNat_be32 {n : Nat} (h : n < 4294967296) : beToNat (be32 n) = n := by
  simp only [be32, beToNat]
  omega

theorem xorBits_lt (fuel : Nat) : ∀ a b, xorBits fuel a b < 2 ^ fuel := by
  induction fuel with
  | zero => intro a b; simp [xorBits]
  | succ n ih =>
    intro a b
    have := ih (a / 2) (b / 2)
    simp only [xorBits, pow_succ]
    omega

theorem xor32_lt (a b : Nat) : xor32 a b < 4294967296 := xorBits_lt 32 a b

theorem crc32_lt (bytes : List Nat) : crc32 bytes < 4294967296 := xor32_lt _ _

theorem generate_crc32_lt (ks vs : Nat) (k : List Nat) (ov : Option (List Nat)) :
    generate_crc32 ks vs k ov < 4294967296 := crc32_lt _

/-- The CRC-covered region ignores the difference between a tombstone and an
empty set value. -/
theorem as_bytes_normValue (ks vs : Nat) (k : List Nat) (ov : Option (List Nat)) :
    as_bytes ks vs k (normValue ov) = as_bytes ks vs k ov := by
  cases ov with
  | none => rfl
  | some v => cases v <;> rfl

theorem generate_crc32_normValue (ks vs : Nat) (k : List Nat) (ov : Option (List Nat)) :
    generate_crc32 ks vs k (normValue ov) = generate_crc32 ks vs k ov := by
  unfold generate_crc32
  rw [as_bytes_normValue]

/-- The encoded form of `Entry::new`, with the size truncations discharged. -/
theorem durable_eq (k : List Nat) (ov : Option (List Nat)) (hkl : k.length < 4294967296)
    (hvl : (ov.getD []).length < 4294967296) :
    (Entry.new k ov).as_durable_bytes =
      be32 (generate_crc32 k.length (ov.getD []).length k ov) ++
        (le32 k.length ++ (le32 (ov.getD []).length ++ (k ++ ov.getD []))) := by
  simp [Entry.new, Entry.as_durable_bytes, as_bytes, Nat.mod_eq_of_lt hkl,
    Nat.mod_eq_of_lt hvl, List.append_assoc]

/-- A record occupies `12 + key_size + value_size` bytes on disk. -/
theorem recBytes_length (r : RecSpec) (hkl : r.1.length < 4294967296)
    (hvl : (r.2.getD []).length < 4294967296) :
    (recBytes r).length = 12 + r.1.length + (r.2.getD []).length := by
  rw [recBytes, durable_eq r.1 r.2 hkl hvl]
  simp [List.length_append, be32_length, le32_length]
  omega

/-- Decoding a well-formed record prefix of a byte stream: `from_reader`
parses exactly the record and returns the entry, with an empty set value
normalised to a tombstone. -/
theorem from_reader_parts (c ks vs : Nat) (k v tail : List Nat)
    (hc : c < 4294967296) (hks : ks < 4294967296) (hvs : vs < 4294967296)
    (hk : k.length = ks) (hv : v.length = vs) :
    from_reader (be32 c ++ (le32 ks ++ (le32 vs ++ (k ++ (v ++ tail))))) =
      (if ¬ validUtf8 k then .utf8Error
       else if ¬ validUtf8 v then .utf8Error
       else if c = generate_crc32 ks vs k (if v.length = 0 then none else some v) then
         .ok ⟨k, if v.length = 0 then none else some v, c, ks, vs⟩
       else .assertPanic) := by
  have l1 : (be32 c ++ (le32 ks ++ (le32 vs ++ (k ++ (v ++ tail))))).take 4 = be32 c :=
    List.take_left' (be32_length c)
  have l2 : (be32 c ++ (le32 ks ++ (le32 vs ++ (k ++ (v ++ tail))))).drop 4 =
      le32 ks ++ (le32 vs ++ (k ++ (v ++ tail))) :=
    List.drop_left' (be32_length c)
  have l3 : ((be32 c ++ (le32 ks ++ (le32 vs ++ (k ++ (v ++ tail))))).drop 4).take 4 =
      le32 ks := by rw [l2]; exact List.take_left' (le32_length ks)
  have l4 : (be32 c ++ (le32 ks ++ (le32 vs ++ (k ++ (v ++ tail))))).drop 8 =
      le32 vs ++ (k ++ (v ++ tail)) := by
    have h8 : (be32 c ++ (le32 ks ++ (le32 vs ++ (k ++ (v ++ tail))))).drop 8 =
        ((be32 c ++ (le32 ks ++ (le32 vs ++ (k ++ (v ++ tail))))).drop 4).drop 4 :=
      (List.drop_drop 4 4 _).symm
    rw [h8, l2]
    exact List.drop_left' (le32_length ks)
  have l5 : ((be32 c ++ (le32 ks ++ (le32 vs ++ (k ++ (v ++ tail))))).drop 8).take 4 =
      le32 vs := by rw [l4]; exact List.take_left' (le32_length vs)
  have l6 : (be32 c ++ (le32 ks ++ (le32 vs ++ (k ++ (v ++ tail))))).drop 12 =
      k ++ (v ++ tail) := by
    have h12 : (be32 c ++ (le32 ks ++ (le32 vs ++ (k ++ (v ++ tail))))).drop 12 =
        ((be32 c ++ (le32 ks ++ (le32 vs ++ (k ++ (v ++ tail))))).drop 8).drop 4 :=
      (List.drop_drop 4 8 _).symm
    rw [h12, l4]
    exact List.drop_left' (le32_length vs)
  have hlen : (be32 c ++ (le32 ks ++ (le32 vs ++ (k ++ (v ++ tail))))).length =
      12 + ks + vs + tail.length := by
    simp [List.length_append, be32_length, le32_length, hk, hv]
    omega
  have hkv : k ++ (v ++ tail) = (k ++ v) ++ tail := (List.append_assoc k v tail).symm
  have btake : (k ++ (v ++ tail)).take (ks + vs) = k ++ v := by
    rw [hkv]
    exact List.take_left' (by simp [List.length_append, hk, hv])
  have keyB : (k ++ v).take ks = k := List.take_left' hk
  have valB : ((k ++ v).drop ks).take vs = v := by
    rw [List.drop_left' hk, ← hv]
    exact List.take_length v
  simp only [from_reader, PREFIX_SIZE, l1, l3, l5, l6, hlen,
    beToNat_be32 hc, leToNat_le32 hks, leToNat_le32 hvs, btake, keyB, valB]
  have g1 : ¬ (12 + ks + vs + tail.length < 12) := by omega
  have g2 : ¬ ((k ++ (v ++ tail)).length < ks + vs) := by
    simp only [List.length_append]
    omega
  rw [if_neg g1, if_neg g2]

/-- Round trip of the codec: decoding a record written by `Entry::new` (with
any bytes following it in the stream) succeeds and recovers the entry — except
that a set with an empty value comes back as a tombstone (`normValue`). -/
theorem from_reader_durable (k : List Nat) (ov : Option (List Nat)) (tail : List Nat)
    (hk : validUtf8 k = true) (hkl : k.length < 4294967296)
    (hov : ∀ w, ov = some w → validUtf8 w = true ∧ w.length < 4294967296) :
    from_reader ((Entry.new k ov).as_durable_bytes ++ tail) =
      .ok (Entry.new k (normValue ov)) := by
  have hvl : (ov.getD []).length < 4294967296 := by
    cases ov with
    | none => simp
    | some w => exact (hov w rfl).2
  have hvu : validUtf8 (ov.getD []) = true := by
    cases ov with
    | none => rfl
    | some w => exact (hov w rfl).1
  rw [durable_eq k ov hkl hvl]
  simp only [List.append_assoc]
  rw [from_reader_parts (generate_crc32 k.length (ov.getD []).length k ov)
    k.length (ov.getD []).length k (ov.getD []) tail
    (generate_crc32_lt _ _ _ _) hkl hvl rfl rfl]
  rw [if_neg (by simp [hk]), if_neg (by simp [hvu])]
  have hval : (if (ov.getD []).length = 0 then none else some (ov.getD [])) = normValue ov := by
    cases ov with
    | none => rfl
    | some w => cases w <;> rfl
  rw [hval]
  rw [if_pos (by rw [generate_crc32_normValue])]
  have hnew : Entry.new k (normValue ov) =
      ⟨k, normValue ov, generate_crc32 k.length (ov.getD []).length k ov,
        k.length, (ov.getD []).length⟩ := by
    have hgd : ((normValue ov).getD []) = ov.getD [] := by
      cases ov with
      | none => rfl
      | some w => cases w <;> rfl
    simp only [Entry.new, hgd, Nat.mod_eq_of_lt hkl, Nat.mod_eq_of_lt hvl,
      generate_crc32_normValue]
  rw [hnew]

/-! ## The lexicographic key order -/

theorem keyLt_irrefl (k : List Nat) : keyLt k k = false := by
  induction k with
  | nil => rfl
  | cons a as ih => simp [keyLt, ih]

theorem keyLt_trans {a b c : List Nat} (hab : keyLt a b = true) (hbc : keyLt b c = true) :
    keyLt a c = true := by
  induction a generalizing b c with
  | nil =>
    cases c with
    | nil =>
      cases b with
      | nil => exact hab
      | cons y ys => simp [keyLt] at hbc
    | cons z zs => simp [keyLt]
  | cons x xs ih =>
    cases b with
    | nil => simp [keyLt] at hab
    | cons y ys =>
      cases c with
      | nil => simp [keyLt] at hbc
      | cons z zs =>
        simp only [keyLt] at hab hbc ⊢
        by_cases hxy : x < y
        · by_cases hyz : y < z
          · rw [if_pos (lt_trans hxy hyz)]
          · rw [if_neg hyz] at hbc
            by_cases hyz' : y = z
            · subst hyz'; rw [if_pos hxy]
            · rw [if_neg hyz'] at hbc; exact absurd hbc (by simp)
        · rw [if_neg hxy] at hab
          by_cases hxy' : x = y
          · subst hxy'
            rw [if_pos rfl] at hab
            by_cases hyz : x < z
            · rw [if_pos hyz]
            · rw [if_neg hyz] at hbc ⊢
              by_cases hyz' : x = z
              · rw [if_pos hyz'] at hbc ⊢
                exact ih hab hbc
              · rw [if_neg hyz'] at hbc; exact absurd hbc (by simp)
          · rw [if_neg hxy'] at hab; exact absurd hab (by simp)

theorem keyLt_ne {a b : List Nat} (h : keyLt a b = true) : a ≠ b := by
  intro he
  subst he
  rw [keyLt_irrefl] at h
  exact absurd h (by simp)

theorem keyLt_total {a b : List Nat} (h : a ≠ b) :
    keyLt a b = true ∨ keyLt b a = true := by
  induction a generalizing b with
  | nil =>
    cases b with
    | nil => exact absurd rfl h
    | cons y ys => left; simp [keyLt]
  | cons x xs ih =>
    cases b with
    | nil => right; simp [keyLt]
    | cons y ys =>
      by_cases hxy : x = y
      · subst hxy
        have hne : xs ≠ ys := fun he => h (by rw [he])
        rcases ih hne with h' | h'
        · left; simp [keyLt, h']
        · right; simp [keyLt, h']
      · rcases Nat.lt_or_ge x y with h' | h'
        · left; simp [keyLt, h']
        · have : y < x := lt_of_le_of_ne h' (fun he => hxy he.symm)
          right; simp [keyLt, this]

/-! ## Keydir operations -/

theorem kdLookup_insert_self (kd : KeyDir) (k : List Nat) (ep : EntryPos) :
    kdLookup (kdInsert kd k ep).1 k = some ep := by
  induction kd with
  | nil => simp [kdInsert, kdLookup]
  | cons p rest ih =>
    obtain ⟨k', ep'⟩ := p
    simp only [kdInsert]
    by_cases h1 : keyLt k k' = true
    · rw [if_pos h1]; simp [kdLookup]
    · rw [if_neg h1]
      by_cases h2 : k = k'
      · rw [if_pos h2]; simp [kdLookup]
      · rw [if_neg h2]; simpa [kdLookup, h2] using ih

theorem kdLookup_insert_other (kd : KeyDir) (k : List Nat) (ep : EntryPos)
    {k' : List Nat} (h : k' ≠ k) :
    kdLookup (kdInsert kd k ep).1 k' = kdLookup kd k' := by
  induction kd with
  | nil => simp [kdInsert, kdLookup, h]
  | cons p rest ih =>
    obtain ⟨k'', ep''⟩ := p
    simp only [kdInsert]
    by_cases h1 : keyLt k k'' = true
    · rw [if_pos h1]; simp [kdLookup, h]
    · rw [if_neg h1]
      by_cases h2 : k = k''
      · subst h2; rw [if_pos rfl]; simp [kdLookup, h]
      · rw [if_neg h2]
        by_cases h3 : k' = k''
        · simp [kdLookup, h3]
        · simpa [kdLookup, h3] using ih

theorem kdRemove_snd (kd : KeyDir) (k : List Nat) :
    (kdRemove kd k).2 = kdLookup kd k := by
  induction kd with
  | nil => rfl
  | cons p rest ih =>
    obtain ⟨k', ep'⟩ := p
    simp only [kdRemove, kdLookup]
    by_cases h : k = k'
    · simp [h]
    · simpa [h] using ih

theorem kdLookup_remove_other (kd : KeyDir) (k : List Nat) {k' : List Nat} (h : k' ≠ k) :
    kdLookup (kdRemove kd k).1 k' = kdLookup kd k' := by
  induction kd with
  | nil => rfl
  | cons p rest ih =>
    obtain ⟨k'', ep''⟩ := p
    simp only [kdRemove]
    by_cases h1 : k = k''
    · subst h1; simp [kdLookup, fun he => h he]
    · rw [if_neg h1]
      by_cases h2 : k' = k''
      · simp [kdLookup, h2]
      · simpa [kdLookup, h2] using ih

theorem kdLookup_eq_none (kd : KeyDir) (k : List Nat) (h : ∀ p ∈ kd, p.1 ≠ k) :
    kdLookup kd k = none := by
  induction kd with
  | nil => rfl
  | cons p rest ih =>
    have h0 : p.1 ≠ k := h p (by simp)
    obtain ⟨k', ep'⟩ := p
    simp only [kdLookup]
    rw [if_neg (fun he => h0 he.symm)]
    exact ih (fun q hq => h q (by simp [hq]))

theorem kdLookup_remove_self (kd : KeyDir) (k : List Nat) (hs : kdSorted kd) :
    kdLookup (kdRemove kd k).1 k = none := by
  induction kd with
  | nil => rfl
  | cons p rest ih =>
    obtain ⟨k', ep'⟩ := p
    rw [kdSorted, List.pairwise_cons] at hs
    simp only [kdRemove]
    by_cases h1 : k = k'
    · subst h1
      simp only [if_pos rfl]
      exact kdLookup_eq_none rest k
        (fun q hq => (keyLt_ne (hs.1 q hq)).symm)
    · rw [if_neg h1]
      simpa [kdLookup, h1] using ih hs.2

theorem kdInsert_mem {kd : KeyDir} {k : List Nat} {ep : EntryPos} {p : List Nat × EntryPos}
    (h : p ∈ (kdInsert kd k ep).1) : p = (k, ep) ∨ p ∈ kd := by
  induction kd with
  | nil => simpa [kdInsert] using h
  | cons q rest ih =>
    obtain ⟨k', ep'⟩ := q
    simp only [kdInsert] at h
    by_cases h1 : keyLt k k' = true
    · rw [if_pos h1] at h
      rcases List.mem_cons.mp h with h | h
      · left; exact h
      · right; exact h
    · rw [if_neg h1] at h
      by_cases h2 : k = k'
      · rw [if_pos h2] at h
        rcases List.mem_cons.mp h with h | h
        · left; exact h
        · right; exact List.mem_cons_of_mem _ h
      · rw [if_neg h2] at h
        rcases List.mem_cons.mp h with h | h
        · right; simp [h]
        · rcases ih h with h | h
          · left; exact h
          · right; exact List.mem_cons_of_mem _ h

theorem kdRemove_mem {kd : KeyDir} {k : List Nat} {p : List Nat × EntryPos}
    (h : p ∈ (kdRemove kd k).1) : p ∈ kd := by
  induction kd with
  | nil => simpa [kdRemove] using h
  | cons q rest ih =>
    obtain ⟨k', ep'⟩ := q
    simp only [kdRemove] at h
    by_cases h1 : k = k'
    · rw [if_pos h1] at h
      exact List.mem_cons_of_mem _ h
    · rw [if_neg h1] at h
      rcases List.mem_cons.mp h with h | h
      · simp [h]
      · exact List.mem_cons_of_mem _ (ih h)

theorem kdInsert_sorted (kd : KeyDir) (k : List Nat) (ep : EntryPos) (hs : kdSorted kd) :
    kdSorted (kdInsert kd k ep).1 := by
  induction kd with
  | nil => simp [kdInsert, kdSorted]
  | cons p rest ih =>
    obtain ⟨k', ep'⟩ := p
    rw [kdSorted, List.pairwise_cons] at hs
    simp only [kdInsert]
    by_cases h1 : keyLt k k' = true
    · rw [if_pos h1]
      rw [kdSorted, List.pairwise_cons]
      refine ⟨?_, List.pairwise_cons.mpr hs⟩
      intro q hq
      rcases List.mem_cons.mp hq with h | h
      · subst h; exact h1
      · exact keyLt_trans h1 (hs.1 q h)
    · rw [if_neg h1]
      by_cases h2 : k = k'
      · subst h2
        rw [if_pos rfl, kdSorted, List.pairwise_cons]
        exact ⟨hs.1, hs.2⟩
      · rw [if_neg h2]
        rw [kdSorted, List.pairwise_cons]
        constructor
        · intro q hq
          rcases kdInsert_mem hq with h | h
          · subst h
            rcases keyLt_total h2 with h | h
            · exact absurd h h1
            · exact h
          · exact hs.1 q h
        · exact ih hs.2

theorem kdRemove_sorted (kd : KeyDir) (k : List Nat) (hs : kdSorted kd) :
    kdSorted (kdRemove kd k).1 := by
  induction kd with
  | nil => simpa [kdRemove] using hs
  | cons p rest ih =>
    obtain ⟨k', ep'⟩ := p
    rw [kdSorted, List.pairwise_cons] at hs
    simp only [kdRemove]
    by_cases h1 : k = k'
    · rw [if_pos h1]; exact hs.2
    · rw [if_neg h1]
      rw [kdSorted, List.pairwise_cons]
      exact ⟨fun q hq => hs.1 q (kdRemove_mem hq), ih hs.2⟩

theorem kdInsert_append_of_gt (kd : KeyDir) (k : List Nat) (ep : EntryPos)
    (h : ∀ p ∈ kd, keyLt p.1 k = true) :
    kdInsert kd k ep = (kd ++ [(k, ep)], none) := by
  induction kd with
  | nil => rfl
  | cons p rest ih =>
    obtain ⟨k', ep'⟩ := p
    have hk' : keyLt k' k = true := h (k', ep') (by simp)
    simp only [kdInsert]
    have h1 : ¬ keyLt k k' = true := by
      intro hlt
      have := keyLt_trans hlt hk'
      rw [keyLt_irrefl] at this
      exact absurd this (by simp)
    have h2 : k ≠ k' := fun he => keyLt_ne hk' he.symm
    rw [if_neg h1, if_neg h2, ih (fun q hq => h q (by simp [hq]))]
    simp

/-! ## Generation-file map operations -/

theorem fLookup_fSet_self (files : Files) (g : Nat) (c : List Nat) :
    fLookup (fSet files g c) g = some c := by
  induction files with
  | nil => simp [fSet, fLookup]
  | cons p rest ih =>
    obtain ⟨g', c'⟩ := p
    simp only [fSet]
    by_cases h1 : g < g'
    · rw [if_pos h1]; simp [fLookup]
    · rw [if_neg h1]
      by_cases h2 : g = g'
      · rw [if_pos h2]; simp [fLookup]
      · rw [if_neg h2]; simpa [fLookup, h2] using ih

theorem fLookup_fSet_other (files : Files) (g : Nat) (c : List Nat) {g' : Nat}
    (h : g' ≠ g) : fLookup (fSet files g c) g' = fLookup files g' := by
  induction files with
  | nil => simp [fSet, fLookup, h]
  | cons p rest ih =>
    obtain ⟨g'', c''⟩ := p
    simp only [fSet]
    by_cases h1 : g < g''
    · rw [if_pos h1]; simp [fLookup, h]
    · rw [if_neg h1]
      by_cases h2 : g = g''
      · subst h2; rw [if_pos rfl]; simp [fLookup, h]
      · rw [if_neg h2]
        by_cases h3 : g' = g''
        · simp [fLookup, h3]
        · simpa [fLookup, h3] using ih

theorem fSet_append_of_gt (files : Files) (g : Nat) (c : List Nat)
    (h : ∀ p ∈ files, p.1 < g) : fSet files g c = files ++ [(g, c)] := by
  induction files with
  | nil => rfl
  | cons p rest ih =>
    obtain ⟨g', c'⟩ := p
    have hg' : g' < g := h (g', c') (by simp)
    simp only [fSet]
    rw [if_neg (by omega), if_neg (by omega), ih (fun q hq => h q (by simp [hq]))]
    simp

theorem fLookup_mem {files : Files} {g : Nat} {c : List Nat}
    (h : fLookup files g = some c) : (g, c) ∈ files := by
  induction files with
  | nil => simp [fLookup] at h
  | cons p rest ih =>
    obtain ⟨g', c'⟩ := p
    simp only [fLookup] at h
    by_cases h1 : g = g'
    · rw [if_pos h1] at h
      subst h1
      simp [← Option.some_inj.mp h]
    · rw [if_neg h1] at h
      exact List.mem_cons_of_mem _ (ih h)

theorem fLookup_isSome_of_mem {files : Files} {g : Nat}
    (h : g ∈ files.map Prod.fst) : ∃ c, fLookup files g = some c := by
  induction files with
  | nil => simp at h
  | cons p rest ih =>
    obtain ⟨g', c'⟩ := p
    simp only [List.map_cons, List.mem_cons] at h
    by_cases h1 : g = g'
    · exact ⟨c', by simp [fLookup, h1]⟩
    · rcases h with h | h
      · exact absurd h h1
      · obtain ⟨c, hc⟩ := ih h
        exact ⟨c, by simp [fLookup, h1, hc]⟩

theorem ensureFile_of_present {files : Files} {g : Nat} {c : List Nat}
    (h : fLookup files g = some c) : ensureFile files g = files := by
  simp [ensureFile, h]

/-! ## Byte extraction -/

theorem extract_append_left {f : List Nat} (t : List Nat) {pos len : Nat}
    (h : pos + len ≤ f.length) : extract (f ++ t) pos len = extract f pos len := by
  rw [extract, extract, List.drop_append_of_le_length (by omega),
    List.take_append_of_le_length (by simp [List.length_drop]; omega)]

theorem extract_append_end (f d : List Nat) (n : Nat) :
    extract (f ++ d) f.length n = d.take n := by
  rw [extract, List.drop_left]

theorem extract_full (f d : List Nat) : extract (f ++ d) f.length d.length = d := by
  rw [extract_append_end, List.take_length]

/-! ## Sorting the generation list -/

theorem insNat_cons_of_le {n : Nat} {l : List Nat} (h : ∀ m ∈ l, n ≤ m) :
    insNat n l = n :: l := by
  cases l with
  | nil => rfl
  | cons m rest => simp [insNat, h m (by simp)]

theorem sortNat_sorted_id {l : List Nat} (h : List.Pairwise (· < ·) l) : sortNat l = l := by
  induction l with
  | nil => rfl
  | cons n rest ih =>
    rw [List.pairwise_cons] at h
    rw [sortNat, ih h.2, insNat_cons_of_le (fun m hm => Nat.le_of_lt (h.1 m hm))]

theorem insNat_mem {n m : Nat} {l : List Nat} (h : m ∈ insNat n l) : m = n ∨ m ∈ l := by
  induction l with
  | nil => simpa [insNat] using h
  | cons x rest ih =>
    simp only [insNat] at h
    by_cases h1 : n ≤ x
    · rw [if_pos h1] at h
      rcases List.mem_cons.mp h with h | h
      · left; exact h
      · right; exact h
    · rw [if_neg h1] at h
      rcases List.mem_cons.mp h with h | h
      · right; simp [h]
      · rcases ih h with h | h
        · left; exact h
        · right; exact List.mem_cons_of_mem _ h

theorem insNat_sorted {n : Nat} {l : List Nat} (h : List.Pairwise (· ≤ ·) l) :
    List.Pairwise (· ≤ ·) (insNat n l) := by
  induction l with
  | nil => simp [insNat]
  | cons x rest ih =>
    rw [List.pairwise_cons] at h
    simp only [insNat]
    by_cases h1 : n ≤ x
    · rw [if_pos h1]
      rw [List.pairwise_cons]
      refine ⟨?_, List.pairwise_cons.mpr h⟩
      intro m hm
      rcases List.mem_cons.mp hm with h' | h'
      · omega
      · exact le_trans h1 (h.1 m h')
    · rw [if_neg h1]
      rw [List.pairwise_cons]
      constructor
      · intro m hm
        rcases insNat_mem hm with h' | h'
        · omega
        · exact h.1 m h'
      · exact ih h.2

theorem sortNat_sorted (l : List Nat) : List.Pairwise (· ≤ ·) (sortNat l) := by
  induction l with
  | nil => simp [sortNat]
  | cons n rest ih => exact insNat_sorted ih

/-! ## `load` decodes a file that is a concatenation of records -/

theorem normValue_eq_of_ne {ov : Option (List Nat)} (h : ov ≠ some []) :
    normValue ov = ov := by
  cases ov with
  | none => rfl
  | some w => cases w with
    | nil => exact absurd rfl h
    | cons b bs => rfl

theorem entry_new_key (k : List Nat) (ov : Option (List Nat)) : (Entry.new k ov).key = k := rfl

theorem entry_new_value (k : List Nat) (ov : Option (List Nat)) :
    (Entry.new k ov).value = ov := rfl

theorem recBytes_len_wf {r : RecSpec} (h : WfRec r) :
    (recBytes r).length = 12 + r.1.length + (r.2.getD []).length :=
  recBytes_length r h.2.1 h.2.2.2.1

theorem replayFile_nil (gen pos : Nat) (kd : KeyDir) : replayFile gen [] pos kd = kd := rfl

theorem replayFile_cons_some (gen : Nat) (k w : List Nat) (rest : List RecSpec)
    (pos : Nat) (kd : KeyDir) :
    replayFile gen ((k, some w) :: rest) pos kd =
      replayFile gen rest (pos + (recBytes (k, some w)).length)
        (kdInsert kd k ⟨gen, pos, (recBytes (k, some w)).length⟩).1 := rfl

theorem replayFile_cons_none (gen : Nat) (k : List Nat) (rest : List RecSpec)
    (pos : Nat) (kd : KeyDir) :
    replayFile gen ((k, none) :: rest) pos kd =
      replayFile gen rest (pos + (recBytes (k, none)).length) (kdRemove kd k).1 := rfl

/-- The scan loop of `load` on a region that is a concatenation of well-formed
records computes exactly the replay of those records (for some final
`uncompacted` contribution `u`), for any fuel exceeding the bytes remaining. -/
theorem loadLoop_spec (gen : Nat) (recs : List RecSpec) :
    ∀ (file : List Nat) (fuel pos : Nat) (kd : KeyDir) (unc : Nat),
      (∀ r ∈ recs, WfRec r) →
      file.drop pos = (recs.map recBytes).flatten →
      pos ≤ file.length →
      file.length - pos < fuel →
      ∃ u, loadLoop gen file fuel pos kd unc = some (replayFile gen recs pos kd, u) := by
  induction recs with
  | nil =>
    intro file fuel pos kd unc _ hdrop hle hfuel
    have h0 : (file.drop pos).length = 0 := by rw [hdrop]; rfl
    rw [List.length_drop] at h0
    obtain ⟨f, rfl⟩ : ∃ f, fuel = f + 1 := ⟨fuel - 1, by omega⟩
    refine ⟨unc, ?_⟩
    rw [loadLoop, if_neg (by omega)]
    rfl
  | cons r rest ih =>
    intro file fuel pos kd unc hwf hdrop hle hfuel
    obtain ⟨k, ov⟩ := r
    have hw : WfRec (k, ov) := hwf _ (by simp)
    obtain ⟨hk, hkl, hvu, hvl, hvne⟩ := hw
    have hL : (recBytes (k, ov)).length = 12 + k.length + (ov.getD []).length :=
      recBytes_len_wf ⟨hk, hkl, hvu, hvl, hvne⟩
    have hfile : file.drop pos =
        recBytes (k, ov) ++ (rest.map recBytes).flatten := by
      rw [hdrop, List.map_cons, List.flatten_cons]
    have hfull : file.drop pos =
        be32 (generate_crc32 k.length (ov.getD []).length k ov) ++
          (le32 k.length ++ (le32 (ov.getD []).length ++
            (k ++ ((ov.getD []) ++ (rest.map recBytes).flatten)))) := by
      rw [hfile, recBytes, durable_eq k ov hkl hvl]
      simp [List.append_assoc]
    have hdl : file.length - pos =
        (recBytes (k, ov)).length + ((rest.map recBytes).flatten).length := by
      have := congrArg List.length hfile
      rw [List.length_drop, List.length_append] at this
      exact this
    have hpos : pos < file.length := by omega
    have hg2 : ¬ (file.length < pos + PREFIX_SIZE) := by
      simp only [PREFIX_SIZE]
      omega
    have hks : leToNat (extract file (pos + 4) 4) = k.length := by
      rw [extract, ← List.drop_drop 4 pos file, hfull,
        List.drop_left' (be32_length _), List.take_left' (le32_length _)]
      exact leToNat_le32 hkl
    have hvs : leToNat (extract file (pos + 8) 4) = (ov.getD []).length := by
      have : file.drop (pos + 8) = (file.drop (pos + 4)).drop 4 := by
        rw [List.drop_drop]
      rw [extract, this, ← List.drop_drop 4 pos file, hfull,
        List.drop_left' (be32_length _), List.drop_left' (le32_length _),
        List.take_left' (le32_length _)]
      exact leToNat_le32 hvl
    have hext : extract file pos (PREFIX_SIZE + k.length + (ov.getD []).length) =
        recBytes (k, ov) := by
      rw [extract, hfile]
      exact List.take_left' (by rw [hL]; rfl)
    have hfr : from_reader
        (extract file pos (PREFIX_SIZE + k.length + (ov.getD []).length)) =
        .ok (Entry.new k ov) := by
      rw [hext, recBytes, ← List.append_nil (Entry.new k ov).as_durable_bytes,
        from_reader_durable k ov [] hk hkl
          (fun w hw => by
            subst hw
            exact ⟨hvu, hvl⟩),
        normValue_eq_of_ne hvne]
    have hnext : file.drop (pos + PREFIX_SIZE + k.length + (ov.getD []).length) =
        (rest.map recBytes).flatten := by
      have harr : pos + PREFIX_SIZE + k.length + (ov.getD []).length =
          pos + (recBytes (k, ov)).length := by
        simp only [PREFIX_SIZE]
        omega
      rw [harr, ← List.drop_drop (recBytes (k, ov)).length pos file, hfile,
        List.drop_left]
    have hnle : pos + PREFIX_SIZE + k.length + (ov.getD []).length ≤ file.length := by
      simp only [PREFIX_SIZE]
      omega
    have hL12 : 12 ≤ (recBytes (k, ov)).length := by omega
    obtain ⟨f', rfl⟩ : ∃ f', fuel = f' + 1 := ⟨fuel - 1, by omega⟩
    have hfuel' : file.length - (pos + PREFIX_SIZE + k.length + (ov.getD []).length) < f' := by
      simp only [PREFIX_SIZE] at *
      omega
    rw [loadLoop, if_pos hpos, if_neg hg2]
    simp only [hks, hvs, hfr]
    cases ov with
    | some w =>
      obtain ⟨u, hu⟩ := ih file f' (pos + PREFIX_SIZE + k.length + w.length)
        (kdInsert kd k ⟨gen, pos, PREFIX_SIZE + k.length + w.length⟩).1
        (unc + (match (kdInsert kd k
          ⟨gen, pos, PREFIX_SIZE + k.length + w.length⟩).2 with
          | some old => old.len | none => 0))
        (fun q hq => hwf q (by simp [hq]))
        (by simpa using hnext) (by simpa using hnle) (by simpa using hfuel')
      refine ⟨u, ?_⟩
      simp only [entry_new_value, entry_new_key]
      rw [replayFile_cons_some]
      have hlen' : (recBytes (k, some w)).length = PREFIX_SIZE + k.length + w.length := by
        rw [hL]
        rfl
      rw [hlen']
      simpa [← Nat.add_assoc] using hu
    | none =>
      obtain ⟨u, hu⟩ := ih file f' (pos + PREFIX_SIZE + k.length + ([] : List Nat).length)
        (kdRemove kd k).1
        (unc + (match (kdRemove kd k).2 with | some old => old.len | none => 0)
             + (PREFIX_SIZE + k.length + leToNat (extract file (pos + 8) 4)))
        (fun q hq => hwf q (by simp [hq]))
        (by simpa using hnext) (by simpa using hnle) (by simpa using hfuel')
      refine ⟨u, ?_⟩
      simp only [entry_new_value, entry_new_key]
      rw [replayFile_cons_none]
      have hlen' : (recBytes (k, none)).length = PREFIX_SIZE + k.length := by
        rw [hL]
        simp [PREFIX_SIZE]
      rw [hlen']
      simpa [hvs, ← Nat.add_assoc] using hu

/-! ## `open` on a good store's files recomputes its keydir -/

theorem kdLookup_mem {kd : KeyDir} {k : List Nat} {ep : EntryPos}
    (h : kdLookup kd k = some ep) : (k, ep) ∈ kd := by
  induction kd with
  | nil => simp [kdLookup] at h
  | cons p rest ih =>
    obtain ⟨k', ep'⟩ := p
    simp only [kdLookup] at h
    by_cases h1 : k = k'
    · rw [if_pos h1] at h
      subst h1
      simp [← Option.some_inj.mp h]
    · rw [if_neg h1] at h
      exact List.mem_cons_of_mem _ (ih h)

theorem fLookup_of_mem {files : Files} (hs : List.Pairwise (· < ·) (files.map Prod.fst))
    {g : Nat} {c : List Nat} (hm : (g, c) ∈ files) : fLookup files g = some c := by
  induction files with
  | nil => simp at hm
  | cons p rest ih =>
    obtain ⟨g', c'⟩ := p
    rw [List.map_cons, List.pairwise_cons] at hs
    rcases List.mem_cons.mp hm with h | h
    · cases h
      simp [fLookup]
    · have hne : g ≠ g' := by
        have : g' < g := hs.1 g (List.mem_map.mpr ⟨(g, c), h, rfl⟩)
        omega
      simp only [fLookup, if_neg hne]
      exact ih hs.2 h

theorem mem_right_of_forall2 {α β : Type} {R : α → β → Prop} :
    ∀ {l1 : List α} {l2 : List β}, List.Forall₂ R l1 l2 → ∀ b ∈ l2, ∃ a ∈ l1, R a b := by
  intro l1 l2 h
  induction h with
  | nil => simp
  | cons hR _ ih =>
    intro b hb
    rcases List.mem_cons.mp hb with h | h
    · exact ⟨_, by simp, h ▸ hR⟩
    · obtain ⟨a, ha, hab⟩ := ih b h
      exact ⟨a, List.mem_cons_of_mem _ ha, hab⟩

theorem map_fst_of_forall2 {α β γ : Type} {R : (γ × α) → (γ × β) → Prop}
    (hfst : ∀ p q, R p q → p.1 = q.1) :
    ∀ {l1 : List (γ × α)} {l2 : List (γ × β)}, List.Forall₂ R l1 l2 →
      l1.map Prod.fst = l2.map Prod.fst := by
  intro l1 l2 h
  induction h with
  | nil => rfl
  | cons hR _ ih => simp [hfst _ _ hR, ih]

theorem replayAll_nil (kd : KeyDir) : replayAll [] kd = kd := rfl

theorem replayAll_cons (g : Nat) (recs : List RecSpec)
    (rest : List (Nat × List RecSpec)) (kd : KeyDir) :
    replayAll ((g, recs) :: rest) kd = replayAll rest (replayFile g recs 0 kd) := rfl

/-- Scanning the generations of a record-decomposed disk in order computes the
replay of all the records. -/
theorem loadAll_spec (disk : Files) (gfrecs : List (Nat × List RecSpec)) :
    ∀ (kd : KeyDir) (unc : Nat),
      (∀ p ∈ gfrecs,
        ((fLookup disk p.1).getD []) = (p.2.map recBytes).flatten ∧ ∀ r ∈ p.2, WfRec r) →
      ∃ u, loadAll disk (gfrecs.map Prod.fst) kd unc = some (replayAll gfrecs kd, u) := by
  induction gfrecs with
  | nil => intro kd unc _; exact ⟨unc, rfl⟩
  | cons p rest ih =>
    intro kd unc hp
    obtain ⟨g, recs⟩ := p
    obtain ⟨hcontent, hwf⟩ := hp (g, recs) (by simp)
    obtain ⟨u1, hu1⟩ := loadLoop_spec g recs ((fLookup disk g).getD [])
      (((fLookup disk g).getD []).length + 1) 0 kd 0 hwf
      (by simpa using hcontent) (by omega) (by omega)
    obtain ⟨u2, hu2⟩ := ih (replayFile g recs 0 kd) (unc + u1)
      (fun q hq => hp q (by simp [hq]))
    refine ⟨u2, ?_⟩
    rw [List.map_cons, loadAll, load, hu1]
    simpa [replayAll_cons] using hu2

/-- Opening the files of a store satisfying the reachable-state invariant
succeeds and reproduces the keydir exactly. -/
theorem openStore_keydir {s : KvStore} (h : Good s) :
    ∃ s₂, openStore s.files = some s₂ ∧ s₂.keydir = s.keydir := by
  obtain ⟨frecs, hinv⟩ := h
  have hfst : s.files.map Prod.fst = frecs.map Prod.fst :=
    map_fst_of_forall2 (fun p q hpq => hpq.1) hinv.shape
  have hload : ∀ p ∈ frecs,
      ((fLookup s.files p.1).getD []) = (p.2.map recBytes).flatten ∧ ∀ r ∈ p.2, WfRec r := by
    intro p hp
    obtain ⟨q, hq, hr⟩ := mem_right_of_forall2 hinv.shape p hp
    obtain ⟨h1, h2, h3⟩ := hr
    have : fLookup s.files p.1 = some q.2 := by
      rw [← h1]
      exact fLookup_of_mem hinv.sorted (by simpa using hq)
    rw [this]
    exact ⟨by simpa using h2, h3⟩
  obtain ⟨u, hu⟩ := loadAll_spec s.files frecs [] 0 hload
  have hgens : sortNat (s.files.map Prod.fst) = s.files.map Prod.fst :=
    sortNat_sorted_id hinv.sorted
  refine ⟨{ files := ensureFile s.files ((frecs.map Prod.fst).getLast?.getD 0 + 1),
            keydir := s.keydir,
            current_gen := (frecs.map Prod.fst).getLast?.getD 0 + 1,
            uncompacted := u }, ?_, rfl⟩
  simp only [openStore]
  rw [hgens, hfst, hu]
  simp [hinv.replay]

/-! ## Structural decomposition of a good store -/

theorem sorted_last_decomp {α : Type} :
    ∀ (l : List (Nat × α)) (g : Nat),
      List.Pairwise (· < ·) (l.map Prod.fst) → g ∈ l.map Prod.fst →
      (∀ x ∈ l.map Prod.fst, x ≤ g) →
      ∃ l₀ c, l = l₀ ++ [(g, c)] ∧ ∀ p ∈ l₀, p.1 < g := by
  intro l
  induction l with
  | nil => intro g _ hmem _; simp at hmem
  | cons p rest ih =>
    intro g hs hmem hle
    obtain ⟨g', c'⟩ := p
    rw [List.map_cons, List.pairwise_cons] at hs
    rw [List.map_cons] at hmem
    cases rest with
    | nil =>
      simp only [List.map_nil, List.mem_cons, List.not_mem_nil, or_false] at hmem
      refine ⟨[], c', ?_, by simp⟩
      simp [hmem]
    | cons q rest' =>
      have hq1 : g' < q.1 := hs.1 q.1 (by simp)
      have hq2 : q.1 ≤ g := hle q.1 (by rw [List.map_cons]; simp)
      have hmem' : g ∈ (q :: rest').map Prod.fst := by
        rcases List.mem_cons.mp hmem with h | h
        · exact absurd hq2 (by omega)
        · exact h
      have hg' : g' < g := lt_of_lt_of_le hq1 hq2
      obtain ⟨l₀, c, hdec, hlt⟩ := ih g hs.2 hmem'
        (fun x hx => hle x (by rw [List.map_cons]; exact List.mem_cons_of_mem _ hx))
      refine ⟨(g', c') :: l₀, c, by simp [hdec], ?_⟩
      intro p hp
      rcases List.mem_cons.mp hp with h | h
      · simp [h, hg']
      · exact hlt p h

theorem forall2_append_singleton {α β : Type} {R : α → β → Prop} :
    ∀ {l₀ : List α} {x : α} {l2 : List β}, List.Forall₂ R (l₀ ++ [x]) l2 →
      ∃ l₂₀ y, l2 = l₂₀ ++ [y] ∧ List.Forall₂ R l₀ l₂₀ ∧ R x y := by
  intro l₀
  induction l₀ with
  | nil =>
    intro x l2 h
    cases h with
    | cons hR htail =>
      cases htail
      exact ⟨[], _, rfl, List.Forall₂.nil, hR⟩
  | cons a rest ih =>
    intro x l2 h
    cases h with
    | cons hR htail =>
      obtain ⟨l₂₀, y, hdec, hf, hxy⟩ := ih htail
      exact ⟨_ :: l₂₀, y, by simp [hdec], List.Forall₂.cons hR hf, hxy⟩

theorem forall2_append {α β : Type} {R : α → β → Prop} :
    ∀ {a : List α} {b : List β} {c : List α} {d : List β},
      List.Forall₂ R a b → List.Forall₂ R c d → List.Forall₂ R (a ++ c) (b ++ d) := by
  intro a b c d hab hcd
  induction hab with
  | nil => simpa using hcd
  | cons hR _ ih => exact List.Forall₂.cons hR ih

/-! ## Appending one record to the active generation -/

theorem replayFile_append (gen : Nat) :
    ∀ (recs : List RecSpec) (r : RecSpec) (pos : Nat) (kd : KeyDir),
      replayFile gen (recs ++ [r]) pos kd =
        (match r.2 with
         | some _ => (kdInsert (replayFile gen recs pos kd) r.1
             ⟨gen, pos + ((recs.map recBytes).flatten).length, (recBytes r).length⟩).1
         | none => (kdRemove (replayFile gen recs pos kd) r.1).1) := by
  intro recs
  induction recs with
  | nil =>
    intro r pos kd
    obtain ⟨k, ov⟩ := r
    cases ov with
    | some w => simp [replayFile_cons_some, replayFile_nil]
    | none => simp [replayFile_cons_none, replayFile_nil]
  | cons x rest ih =>
    intro r pos kd
    obtain ⟨kx, ovx⟩ := x
    cases ovx with
    | some w =>
      rw [List.cons_append, replayFile_cons_some, replayFile_cons_some, ih]
      simp only [List.map_cons, List.flatten_cons, List.length_append]
      cases r.2 <;> simp [Nat.add_assoc]
    | none =>
      rw [List.cons_append, replayFile_cons_none, replayFile_cons_none, ih]
      simp only [List.map_cons, List.flatten_cons, List.length_append]
      cases r.2 <;> simp [Nat.add_assoc]

theorem replayAll_concat (frecs₀ : List (Nat × List RecSpec)) (g : Nat)
    (recs : List RecSpec) (kd : KeyDir) :
    replayAll (frecs₀ ++ [(g, recs)]) kd = replayFile g recs 0 (replayAll frecs₀ kd) := by
  simp [replayAll, List.foldl_append]

theorem fSet_replace_at (xs ys : Files) (g : Nat) (c0 c : List Nat)
    (h : ∀ p ∈ xs, p.1 < g) :
    fSet (xs ++ (g, c0) :: ys) g c = xs ++ (g, c) :: ys := by
  induction xs with
  | nil => simp [fSet]
  | cons p rest ih =>
    obtain ⟨g', c'⟩ := p
    have : g' < g := h (g', c') (by simp)
    simp only [List.cons_append, fSet]
    rw [if_neg (by omega), if_neg (by omega), List.append_eq,
      ih (fun q hq => h q (by simp [hq]))]

theorem fSet_insert_at (xs ys : Files) (g h' : Nat) (ch c : List Nat)
    (hxs : ∀ p ∈ xs, p.1 < g) (hgh : g < h') :
    fSet (xs ++ (h', ch) :: ys) g c = xs ++ (g, c) :: (h', ch) :: ys := by
  induction xs with
  | nil => simp [fSet, hgh]
  | cons p rest ih =>
    obtain ⟨g', c'⟩ := p
    have : g' < g := hxs (g', c') (by simp)
    simp only [List.cons_append, fSet]
    rw [if_neg (by omega), if_neg (by omega), List.append_eq,
      ih (fun q hq => hxs q (by simp [hq]))]

/-- Appending one well-formed record to the current generation's file and
updating the keydir accordingly (insert for a set, remove for a tombstone)
preserves the reachable-state invariant, for any `uncompacted` value. -/
theorem good_append_rec (s : KvStore) (frecs : List (Nat × List RecSpec)) (r : RecSpec)
    (u : Nat) (h : GoodInv s frecs) (hr : WfRec r) :
    ∃ frecs', GoodInv
      { files := fSet s.files s.current_gen
          (((fLookup s.files s.current_gen).getD []) ++ recBytes r),
        keydir := (match r.2 with
          | some _ => (kdInsert s.keydir r.1
              ⟨s.current_gen, ((fLookup s.files s.current_gen).getD []).length,
               (recBytes r).length⟩).1
          | none => (kdRemove s.keydir r.1).1),
        current_gen := s.current_gen, uncompacted := u } frecs' := by
  obtain ⟨files₀, content, hdec, hlt⟩ :=
    sorted_last_decomp s.files s.current_gen h.sorted h.present h.bound
  have hshape := h.shape
  rw [hdec] at hshape
  obtain ⟨frecs₀, y, hdec2, hf0, hxy⟩ := forall2_append_singleton hshape
  obtain ⟨hy1, hy2, hy3⟩ := hxy
  obtain ⟨gy, recs⟩ := y
  simp only at hy1 hy2 hy3
  subst hy1
  have hcontent : fLookup s.files s.current_gen = some content := by
    have hmem : (s.current_gen, content) ∈ s.files := by
      rw [hdec]
      simp
    exact fLookup_of_mem h.sorted hmem
  have hfiles' : fSet s.files s.current_gen (content ++ recBytes r) =
      files₀ ++ [(s.current_gen, content ++ recBytes r)] := by
    rw [hdec]
    exact fSet_replace_at files₀ [] s.current_gen content (content ++ recBytes r) hlt
  refine ⟨frecs₀ ++ [(s.current_gen, recs ++ [r])], ?_, ?_, ?_, ?_, ?_⟩
  · -- shape
    simp only [hcontent, Option.getD_some, hfiles']
    refine forall2_append hf0 ?_
    refine List.Forall₂.cons ⟨rfl, ?_, ?_⟩ List.Forall₂.nil
    · rw [hy2]
      simp
    · intro q hq
      rcases List.mem_append.mp hq with hq | hq
      · exact hy3 q hq
      · simp only [List.mem_singleton] at hq
        exact hq ▸ hr
  · -- sorted
    simp only [hcontent, Option.getD_some, hfiles']
    have : (files₀ ++ [(s.current_gen, content ++ recBytes r)]).map Prod.fst =
        (files₀ ++ [(s.current_gen, content)]).map Prod.fst := by simp
    rw [this, ← hdec]
    exact h.sorted
  · -- bound
    intro g hg
    simp only [hcontent, Option.getD_some, hfiles'] at hg
    apply h.bound
    rw [hdec]
    simpa using hg
  · -- present
    simp only [hcontent, Option.getD_some, hfiles']
    simp
  · -- replay
    simp only [hcontent, Option.getD_some]
    rw [replayAll_concat, replayFile_append]
    have hrep : replayFile s.current_gen recs 0 (replayAll frecs₀ []) = s.keydir := by
      have := h.replay
      rw [hdec2, replayAll_concat] at this
      exact this
    have hclen : ((recs.map recBytes).flatten).length = content.length := by
      rw [hy2]
    rw [hrep, hclen]
    cases hr2 : r.2 <;> simp

/-! ## The compaction copy loop -/

theorem fLookup_eq_none {files : Files} {g : Nat} (h : ∀ p ∈ files, p.1 ≠ g) :
    fLookup files g = none := by
  induction files with
  | nil => rfl
  | cons p rest ih =>
    obtain ⟨g', c'⟩ := p
    have h0 : g' ≠ g := h (g', c') (by simp)
    simp only [fLookup]
    rw [if_neg (fun he => h0 he.symm)]
    exact ih (fun q hq => h q (by simp [hq]))

theorem fLookup_append (a b : Files) (g : Nat) :
    fLookup (a ++ b) g =
      (match fLookup a g with
       | some c => some c
       | none => fLookup b g) := by
  induction a with
  | nil => simp [fLookup]
  | cons p rest ih =>
    obtain ⟨g', c'⟩ := p
    simp only [List.cons_append, fLookup]
    by_cases h1 : g = g'
    · simp [h1]
    · simpa [h1] using ih

/-- A successful run of the compaction copy loop computes `compactedKd` and
`compactedOut` (given that every entry's reader exists). -/
theorem compactFold_spec (files2 : Files) (cgen : Nat) :
    ∀ (entries : KeyDir) (acc : KeyDir) (out : List Nat) (np : Nat),
      (∀ p ∈ entries, ∃ f, fLookup files2 p.2.gen = some f) →
      entries.foldlM (compactStep files2 cgen) (acc, out, np) =
        some (acc ++ compactedKd files2 cgen entries np,
              out ++ compactedOut files2 entries,
              np + (compactedOut files2 entries).length) := by
  intro entries
  induction entries with
  | nil =>
    intro acc out np _
    simp [compactedKd, compactedOut]
  | cons p rest ih =>
    intro acc out np hpres
    obtain ⟨f, hf⟩ := hpres p (by simp)
    rw [List.foldlM_cons]
    have hstep : compactStep files2 cgen (acc, out, np) p =
        some (acc ++ [(p.1, ⟨cgen, np, (extract f p.2.pos p.2.len).length⟩)],
              out ++ extract f p.2.pos p.2.len,
              np + (extract f p.2.pos p.2.len).length) := by
      simp [compactStep, hf]
    rw [hstep]
    show List.foldlM (compactStep files2 cgen) _ rest = _
    rw [ih _ _ _ (fun q hq => hpres q (by simp [hq]))]
    simp only [compactedKd, compactedOut, List.map_cons, List.flatten_cons, hf,
      Option.getD_some, List.length_append]
    rw [List.append_assoc, List.append_assoc]
    simp [Nat.add_assoc]

/-- Whatever a successful compaction copy loop returns is the `compactedKd` /
`compactedOut` value (no presence assumption). -/
theorem compactFold_eq (files2 : Files) (cgen : Nat) :
    ∀ (entries : KeyDir) (acc : KeyDir) (out : List Nat) (np : Nat)
      (r : KeyDir × List Nat × Nat),
      entries.foldlM (compactStep files2 cgen) (acc, out, np) = some r →
      r = (acc ++ compactedKd files2 cgen entries np,
           out ++ compactedOut files2 entries,
           np + (compactedOut files2 entries).length) := by
  intro entries
  induction entries with
  | nil =>
    intro acc out np r h
    simp only [List.foldlM_nil] at h
    simp [compactedKd, compactedOut, ← Option.some_inj.mp h]
  | cons p rest ih =>
    intro acc out np r h
    rw [List.foldlM_cons] at h
    cases hf : fLookup files2 p.2.gen with
    | none =>
      rw [show compactStep files2 cgen (acc, out, np) p = none by
        simp [compactStep, hf]] at h
      simp at h
    | some f =>
      rw [show compactStep files2 cgen (acc, out, np) p =
          some (acc ++ [(p.1, ⟨cgen, np, (extract f p.2.pos p.2.len).length⟩)],
                out ++ extract f p.2.pos p.2.len,
                np + (extract f p.2.pos p.2.len).length) by
        simp [compactStep, hf]] at h
      have h' := ih _ _ _ _ h
      rw [h']
      simp only [compactedKd, compactedOut, List.map_cons, List.flatten_cons, hf,
        Option.getD_some, List.length_append]
      rw [List.append_assoc, List.append_assoc]
      simp [Nat.add_assoc]

/-- Looking up a compacted entry: same keys, repointed into the compaction
file, and the new byte range holds exactly the copied bytes. -/
theorem compactedKd_lookup_of (files2 : Files) (cgen : Nat) :
    ∀ (entries : KeyDir) (np : Nat) (k : List Nat) (ep : EntryPos),
      kdLookup entries k = some ep →
      ∃ pre,
        kdLookup (compactedKd files2 cgen entries np) k =
          some ⟨cgen, np + pre,
            (extract ((fLookup files2 ep.gen).getD []) ep.pos ep.len).length⟩ ∧
        extract (compactedOut files2 entries) pre
            (extract ((fLookup files2 ep.gen).getD []) ep.pos ep.len).length =
          extract ((fLookup files2 ep.gen).getD []) ep.pos ep.len := by
  intro entries
  induction entries with
  | nil => intro np k ep h; simp [kdLookup] at h
  | cons p rest ih =>
    intro np k ep h
    obtain ⟨k', ep'⟩ := p
    simp only [kdLookup] at h
    by_cases h1 : k = k'
    · rw [if_pos h1] at h
      cases Option.some_inj.mp h
      refine ⟨0, ?_, ?_⟩
      · simp [compactedKd, kdLookup, h1]
      · simp only [compactedOut, List.map_cons, List.flatten_cons, extract,
          List.drop_zero]
        exact List.take_left' rfl
    · rw [if_neg h1] at h
      obtain ⟨pre, hl, hx⟩ := ih
        (np + (extract ((fLookup files2 ep'.gen).getD []) ep'.pos ep'.len).length) k ep h
      refine ⟨(extract ((fLookup files2 ep'.gen).getD []) ep'.pos ep'.len).length + pre,
        ?_, ?_⟩
      · simp only [compactedKd, kdLookup, if_neg h1]
        rw [hl, ← Nat.add_assoc]
      · simp only [compactedOut, List.map_cons, List.flatten_cons, extract]
        rw [← List.drop_drop, List.drop_left]
        exact hx

/-! ## Every keydir entry of a good store resolves to a live set record -/

theorem replayFile_mem (gen : Nat) (content : List Nat) :
    ∀ (recs : List RecSpec) (pos : Nat) (kd : KeyDir),
      content.drop pos = (recs.map recBytes).flatten →
      (∀ r ∈ recs, WfRec r) →
      ∀ p ∈ replayFile gen recs pos kd,
        p ∈ kd ∨ ∃ v, WfRec (p.1, some v) ∧ p.2.gen = gen ∧
          p.2.len = (recBytes (p.1, some v)).length ∧
          extract content p.2.pos p.2.len = recBytes (p.1, some v) := by
  intro recs
  induction recs with
  | nil =>
    intro pos kd _ _ p hp
    left
    simpa [replayFile_nil] using hp
  | cons r rest ih =>
    intro pos kd hdrop hwf p hp
    obtain ⟨k, ov⟩ := r
    have hfile : content.drop pos = recBytes (k, ov) ++ (rest.map recBytes).flatten := by
      rw [hdrop, List.map_cons, List.flatten_cons]
    have hnext : content.drop (pos + (recBytes (k, ov)).length) =
        (rest.map recBytes).flatten := by
      rw [← List.drop_drop, hfile, List.drop_left]
    have hwfr : ∀ q ∈ rest, WfRec q := fun q hq => hwf q (by simp [hq])
    cases ov with
    | some w =>
      rw [replayFile_cons_some] at hp
      rcases ih _ _ hnext hwfr p hp with hin | hrec
      · rcases kdInsert_mem hin with he | hin'
        · right
          subst he
          refine ⟨w, hwf (k, some w) (by simp), rfl, rfl, ?_⟩
          rw [extract, hfile]
          exact List.take_left' rfl
        · left; exact hin'
      · right; exact hrec
    | none =>
      rw [replayFile_cons_none] at hp
      rcases ih _ _ hnext hwfr p hp with hin | hrec
      · left; exact kdRemove_mem hin
      · right; exact hrec

theorem replayAll_mem (disk : Files) :
    ∀ (gfrecs : List (Nat × List RecSpec)) (kd : KeyDir),
      (∀ q ∈ gfrecs,
        ((fLookup disk q.1).getD []) = (q.2.map recBytes).flatten ∧ ∀ r ∈ q.2, WfRec r) →
      ∀ p ∈ replayAll gfrecs kd,
        p ∈ kd ∨ ∃ v, WfRec (p.1, some v) ∧ p.2.gen ∈ gfrecs.map Prod.fst ∧
          p.2.len = (recBytes (p.1, some v)).length ∧
          extract ((fLookup disk p.2.gen).getD []) p.2.pos p.2.len =
            recBytes (p.1, some v) := by
  intro gfrecs
  induction gfrecs with
  | nil =>
    intro kd _ p hp
    left
    simpa [replayAll_nil] using hp
  | cons q rest ih =>
    intro kd hq p hp
    obtain ⟨g, recs⟩ := q
    obtain ⟨hcontent, hwf⟩ := hq (g, recs) (by simp)
    rw [replayAll_cons] at hp
    rcases ih _ (fun q' hq' => hq q' (by simp [hq'])) p hp with hin | hrec
    · rcases replayFile_mem g ((fLookup disk g).getD []) recs 0 kd
        (by simpa using hcontent) hwf p hin with hin' | hthis
      · left; exact hin'
      · right
        obtain ⟨v, h1, h2, h3, h4⟩ := hthis
        exact ⟨v, h1, by simp [h2], h3, h2 ▸ h4⟩
    · right
      obtain ⟨v, h1, h2, h3, h4⟩ := hrec
      exact ⟨v, h1, by simp [h2], h3, h4⟩

/-- The per-generation content hypothesis extracted from `GoodInv`. -/
theorem good_files_content {s : KvStore} {frecs : List (Nat × List RecSpec)}
    (hinv : GoodInv s frecs) :
    ∀ p ∈ frecs,
      ((fLookup s.files p.1).getD []) = (p.2.map recBytes).flatten ∧
        ∀ r ∈ p.2, WfRec r := by
  intro p hp
  obtain ⟨q, hq, hr⟩ := mem_right_of_forall2 hinv.shape p hp
  obtain ⟨h1, h2, h3⟩ := hr
  have : fLookup s.files p.1 = some q.2 := by
    rw [← h1]
    exact fLookup_of_mem hinv.sorted (by simpa using hq)
  rw [this]
  exact ⟨by simpa using h2, h3⟩

/-- Every entry of a good store's keydir points, within an existing generation
file not beyond the current one, at the verbatim bytes of a well-formed set
record for its own key. -/
theorem good_mem_resolve {s : KvStore} {frecs : List (Nat × List RecSpec)}
    (hinv : GoodInv s frecs) :
    ∀ p ∈ s.keydir, ∃ v f, WfRec (p.1, some v) ∧
      fLookup s.files p.2.gen = some f ∧
      p.2.len = (recBytes (p.1, some v)).length ∧
      extract f p.2.pos p.2.len = recBytes (p.1, some v) ∧
      p.2.gen ≤ s.current_gen := by
  intro p hp
  rw [← hinv.replay] at hp
  rcases replayAll_mem s.files frecs [] (good_files_content hinv) p hp with hin | hrec
  · simp at hin
  · obtain ⟨v, h1, h2, h3, h4⟩ := hrec
    have hfst : s.files.map Prod.fst = frecs.map Prod.fst :=
      map_fst_of_forall2 (fun p q hpq => hpq.1) hinv.shape
    have hmem : p.2.gen ∈ s.files.map Prod.fst := by rw [hfst]; exact h2
    obtain ⟨f, hf⟩ := fLookup_isSome_of_mem hmem
    refine ⟨v, f, h1, hf, h3, ?_, hinv.bound _ hmem⟩
    rw [hf] at h4
    simpa using h4

theorem replayFile_sorted (gen : Nat) :
    ∀ (recs : List RecSpec) (pos : Nat) (kd : KeyDir), kdSorted kd →
      kdSorted (replayFile gen recs pos kd) := by
  intro recs
  induction recs with
  | nil => intro pos kd h; simpa [replayFile_nil] using h
  | cons r rest ih =>
    intro pos kd h
    obtain ⟨k, ov⟩ := r
    cases ov with
    | some w =>
      rw [replayFile_cons_some]
      exact ih _ _ (kdInsert_sorted _ _ _ h)
    | none =>
      rw [replayFile_cons_none]
      exact ih _ _ (kdRemove_sorted _ _ h)

theorem replayAll_sorted :
    ∀ (gfrecs : List (Nat × List RecSpec)) (kd : KeyDir), kdSorted kd →
      kdSorted (replayAll gfrecs kd) := by
  intro gfrecs
  induction gfrecs with
  | nil => intro kd h; simpa [replayAll_nil] using h
  | cons q rest ih =>
    intro kd h
    rw [replayAll_cons]
    exact ih _ (replayFile_sorted _ _ _ _ h)

theorem good_kdSorted {s : KvStore} {frecs : List (Nat × List RecSpec)}
    (hinv : GoodInv s frecs) : kdSorted s.keydir := by
  rw [← hinv.replay]
  exact replayAll_sorted frecs [] (by simp [kdSorted])

/-! ## Compaction: shape of the file set and preservation of reads -/

/-- Replaying the records the compaction loop writes, starting from a keydir
whose keys all precede them, appends exactly the compacted keydir. -/
theorem compacted_replay (files2 : Files) (cgen : Nat) :
    ∀ (entries : KeyDir) (np : Nat) (kd0 : KeyDir),
      kdSorted entries →
      (∀ p ∈ entries, ∀ q ∈ kd0, keyLt q.1 p.1 = true) →
      (∀ p ∈ entries, ∃ v, WfRec (p.1, some v) ∧
        extract ((fLookup files2 p.2.gen).getD []) p.2.pos p.2.len =
          recBytes (p.1, some v)) →
      ∃ recs, compactedOut files2 entries = (recs.map recBytes).flatten ∧
        (∀ r ∈ recs, WfRec r) ∧
        replayFile cgen recs np kd0 = kd0 ++ compactedKd files2 cgen entries np := by
  intro entries
  induction entries with
  | nil =>
    intro np kd0 _ _ _
    exact ⟨[], by simp [compactedOut], by simp, by simp [replayFile_nil, compactedKd]⟩
  | cons p rest ih =>
    intro np kd0 hsorted hbelow hres
    obtain ⟨k, ep⟩ := p
    obtain ⟨v, hwfv, hcopy⟩ := hres (k, ep) (by simp)
    rw [kdSorted, List.pairwise_cons] at hsorted
    have hlen : (extract ((fLookup files2 ep.gen).getD []) ep.pos ep.len).length =
        (recBytes (k, some v)).length := by rw [hcopy]
    obtain ⟨recs', hout', hwf', hrep'⟩ := ih
      (np + (extract ((fLookup files2 ep.gen).getD []) ep.pos ep.len).length)
      (kd0 ++ [(k, ⟨cgen, np,
        (extract ((fLookup files2 ep.gen).getD []) ep.pos ep.len).length⟩)])
      hsorted.2
      (by
        intro p' hp' q hq
        rcases List.mem_append.mp hq with hq | hq
        · exact keyLt_trans (hbelow (k, ep) (by simp) q hq) (hsorted.1 p' hp')
        · simp only [List.mem_singleton] at hq
          subst hq
          exact hsorted.1 p' hp')
      (fun p' hp' => hres p' (by simp [hp']))
    refine ⟨(k, some v) :: recs', ?_, ?_, ?_⟩
    · simp only [compactedOut, List.map_cons, List.flatten_cons] at *
      rw [hcopy, hout']
    · intro r hr
      rcases List.mem_cons.mp hr with hr | hr
      · exact hr ▸ hwfv
      · exact hwf' r hr
    · rw [replayFile_cons_some,
        kdInsert_append_of_gt kd0 k _ (fun q hq => hbelow (k, ep) (by simp) q hq)]
      dsimp only
      rw [← hlen, hrep']
      simp [compactedKd]

/-- The two `new_log_file` calls at the start of `compact` append the fresh
compaction and active generations after the existing files. -/
theorem compact_shape {s : KvStore}
    (hbound : ∀ g ∈ s.files.map Prod.fst, g ≤ s.current_gen) :
    ensureFile (ensureFile s.files (s.current_gen + 2)) (s.current_gen + 1) =
      s.files ++ [(s.current_gen + 1, []), (s.current_gen + 2, [])] := by
  have hlt : ∀ p ∈ s.files, p.1 ≤ s.current_gen :=
    fun p hp => hbound p.1 (List.mem_map_of_mem _ hp)
  have h1 : fLookup s.files (s.current_gen + 2) = none :=
    fLookup_eq_none (fun p hp => by have := hlt p hp; omega)
  have h2 : ensureFile s.files (s.current_gen + 2) = s.files ++ [(s.current_gen + 2, [])] := by
    rw [ensureFile, h1, fSet_append_of_gt _ _ _ (fun p hp => by have := hlt p hp; omega)]
  rw [h2]
  have h3 : fLookup (s.files ++ [(s.current_gen + 2, [])]) (s.current_gen + 1) = none := by
    rw [fLookup_append,
      fLookup_eq_none (fun p hp => by have := hlt p hp; omega)]
    simp [fLookup]
  rw [ensureFile, h3]
  exact fSet_insert_at s.files [] (s.current_gen + 1) (s.current_gen + 2) [] []
    (fun p hp => by have := hlt p hp; omega) (by omega)

/-- After a successful compaction, reading any key that resolved to existing
bytes before returns exactly what it returned before: the byte range was
copied verbatim and the keydir entry repointed at the copy. -/
theorem compact_get_pre {s s' : KvStore} {k : List Nat} {ep : EntryPos} {f : List Nat}
    (hbound : ∀ g ∈ s.files.map Prod.fst, g ≤ s.current_gen)
    (hlk : kdLookup s.keydir k = some ep)
    (hf : fLookup s.files ep.gen = some f)
    (hok : s.compact = some s') :
    s'.get k = s.get k := by
  have hlt : ∀ p ∈ s.files, p.1 ≤ s.current_gen :=
    fun p hp => hbound p.1 (List.mem_map_of_mem _ hp)
  simp only [KvStore.compact, compact_shape hbound] at hok
  set files2 := s.files ++ [(s.current_gen + 1, []), (s.current_gen + 2, [])] with hfiles2
  split at hok
  · exact absurd hok (by simp)
  case _ kd out np hfold =>
    have hr := compactFold_eq files2 (s.current_gen + 1) s.keydir [] [] 0 _ hfold
    have hkd : kd = compactedKd files2 (s.current_gen + 1) s.keydir 0 := by
      simpa using congrArg Prod.fst hr
    have hout : out = compactedOut files2 s.keydir := by
      have := congrArg (fun x => x.2.1) hr
      simpa using this
    have hbase : fLookup files2 (s.current_gen + 1) = some [] := by
      rw [hfiles2, fLookup_append,
        fLookup_eq_none (fun p hp => by have := hlt p hp; omega)]
      simp [fLookup]
    have hepgen : ep.gen ≤ s.current_gen := by
      have := hbound ep.gen (List.mem_map_of_mem Prod.fst (fLookup_mem hf))
      exact this
    have hfl2 : fLookup files2 ep.gen = some f := by
      rw [hfiles2, fLookup_append, hf]
    have hfiles3 : fSet files2 (s.current_gen + 1) ([] ++ out) =
        s.files ++ (s.current_gen + 1, out) :: [(s.current_gen + 2, [])] := by
      rw [hfiles2]
      have := fSet_replace_at s.files [(s.current_gen + 2, [])] (s.current_gen + 1)
        [] out (fun p hp => by have := hlt p hp; omega)
      simpa using this
    have hfilter : (s.files ++ (s.current_gen + 1, out) :: [(s.current_gen + 2, [])]).filter
        (fun p => decide (s.current_gen + 1 ≤ p.1)) =
        [(s.current_gen + 1, out), (s.current_gen + 2, [])] := by
      rw [List.filter_append]
      have hnil : s.files.filter (fun p => decide (s.current_gen + 1 ≤ p.1)) = [] := by
        rw [List.filter_eq_nil]
        intro p hp
        have := hlt p hp
        simp
        omega
      rw [hnil]
      simp
    obtain rfl := Option.some_inj.mp hok
    obtain ⟨pre, hl, hx⟩ :=
      compactedKd_lookup_of files2 (s.current_gen + 1) s.keydir 0 k ep hlk
    simp only [KvStore.get, hbase, Option.getD_some, hkd, hfiles3, hfilter]
    rw [hl]
    have hflc : fLookup [(s.current_gen + 1, out), (s.current_gen + 2, [])]
        (s.current_gen + 1) = some out := by simp [fLookup]
    simp only [hflc]
    rw [hout]
    have : extract (compactedOut files2 s.keydir) (0 + pre)
        (extract ((fLookup files2 ep.gen).getD []) ep.pos ep.len).length =
        extract ((fLookup files2 ep.gen).getD []) ep.pos ep.len := by
      simpa using hx
    rw [this, hfl2]
    simp only [Option.getD_some, hlk, hf]

theorem compact_uncompacted {s s' : KvStore} (hok : s.compact = some s') :
    s'.uncompacted = 0 := by
  simp only [KvStore.compact] at hok
  split at hok
  · exact absurd hok (by simp)
  · rw [← Option.some_inj.mp hok]

/-- When every keydir entry's reader exists, `compact` succeeds and produces
exactly the compacted file pair and repointed keydir. -/
theorem compact_run_eq {s : KvStore}
    (hbound : ∀ g ∈ s.files.map Prod.fst, g ≤ s.current_gen)
    (hpres : ∀ p ∈ s.keydir, ∃ f, fLookup
      (s.files ++ [(s.current_gen + 1, []), (s.current_gen + 2, [])]) p.2.gen = some f) :
    s.compact = some {
      files := [(s.current_gen + 1,
        compactedOut (s.files ++ [(s.current_gen + 1, []), (s.current_gen + 2, [])]) s.keydir),
        (s.current_gen + 2, [])],
      keydir := compactedKd (s.files ++ [(s.current_gen + 1, []), (s.current_gen + 2, [])])
        (s.current_gen + 1) s.keydir 0,
      current_gen := s.current_gen + 2,
      uncompacted := 0 } := by
  have hlt : ∀ p ∈ s.files, p.1 ≤ s.current_gen :=
    fun p hp => hbound p.1 (List.mem_map_of_mem _ hp)
  simp only [KvStore.compact, compact_shape hbound]
  rw [compactFold_spec _ _ s.keydir [] [] 0 hpres]
  have hbase : fLookup (s.files ++ [(s.current_gen + 1, []), (s.current_gen + 2, [])])
      (s.current_gen + 1) = some [] := by
    rw [fLookup_append, fLookup_eq_none (fun p hp => by have := hlt p hp; omega)]
    simp [fLookup]
  simp only [List.nil_append, Nat.zero_add, hbase, Option.getD_some]
  have hfiles3 : fSet (s.files ++ [(s.current_gen + 1, []), (s.current_gen + 2, [])])
      (s.current_gen + 1)
      (compactedOut (s.files ++ [(s.current_gen + 1, []), (s.current_gen + 2, [])])
        s.keydir) =
      s.files ++ (s.current_gen + 1,
        compactedOut (s.files ++ [(s.current_gen + 1, []), (s.current_gen + 2, [])]) s.keydir)
        :: [(s.current_gen + 2, [])] := by
    have := fSet_replace_at s.files [(s.current_gen + 2, [])] (s.current_gen + 1)
      [] (compactedOut (s.files ++ [(s.current_gen + 1, []), (s.current_gen + 2, [])]) s.keydir)
      (fun p hp => by have := hlt p hp; omega)
    simpa using this
  rw [hfiles3, List.filter_append]
  have hnil : s.files.filter (fun p => decide (s.current_gen + 1 ≤ p.1)) = [] := by
    rw [List.filter_eq_nil]
    intro p hp
    have := hlt p hp
    simp
    omega
  rw [hnil]
  simp

/-- Compaction of a good store succeeds and yields a good store. -/
theorem good_compact {s : KvStore} (hg : Good s) :
    ∃ s', s.compact = some s' ∧ Good s' := by
  obtain ⟨frecs, hinv⟩ := hg
  set files2 := s.files ++ [(s.current_gen + 1, []), (s.current_gen + 2, [])] with hfiles2
  have hres0 := good_mem_resolve hinv
  have hpres : ∀ p ∈ s.keydir, ∃ f, fLookup files2 p.2.gen = some f := by
    intro p hp
    obtain ⟨v, f, _, hf, _, _, _⟩ := hres0 p hp
    exact ⟨f, by rw [hfiles2, fLookup_append, hf]⟩
  have hrun := compact_run_eq hinv.bound hpres
  refine ⟨_, hrun, ?_⟩
  have hres2 : ∀ p ∈ s.keydir, ∃ v, WfRec (p.1, some v) ∧
      extract ((fLookup files2 p.2.gen).getD []) p.2.pos p.2.len =
        recBytes (p.1, some v) := by
    intro p hp
    obtain ⟨v, f, hwfv, hf, _, hext, _⟩ := hres0 p hp
    refine ⟨v, hwfv, ?_⟩
    have : fLookup files2 p.2.gen = some f := by rw [hfiles2, fLookup_append, hf]
    rw [this, Option.getD_some]
    exact hext
  obtain ⟨recs, hout, hwf, hrep⟩ := compacted_replay files2 (s.current_gen + 1)
    s.keydir 0 [] (good_kdSorted hinv) (by simp) hres2
  refine ⟨[(s.current_gen + 1, recs), (s.current_gen + 2, [])], ?_, ?_, ?_, ?_, ?_⟩
  · exact List.Forall₂.cons ⟨rfl, hout, hwf⟩
      (List.Forall₂.cons ⟨rfl, by simp, by simp⟩ List.Forall₂.nil)
  · simp
  · intro g hgm
    dsimp only at hgm ⊢
    simp at hgm
    rcases hgm with h | h <;> omega
  · simp
  · rw [replayAll_cons, replayAll_cons, replayAll_nil, replayFile_nil]
    simpa using hrep

/-! ## The engine's mutations preserve the invariant -/

/-- A `set` with a well-formed key and non-empty value on a good store
succeeds (compaction included) and yields a good store. -/
theorem good_set {s : KvStore} (hg : Good s) (k v : List Nat)
    (hk : validUtf8 k = true) (hkl : k.length < 4294967296)
    (hv : validUtf8 v = true) (hvl : v.length < 4294967296) (hvne : v ≠ []) :
    ∃ s', s.set k v = some s' ∧ Good s' := by
  obtain ⟨frecs, hinv⟩ := hg
  have hwfr : WfRec (k, some v) :=
    ⟨hk, hkl, by simpa using hv, by simpa using hvl, by simp [hvne]⟩
  obtain ⟨frecs', hinv'⟩ := good_append_rec s frecs (k, some v)
    (s.uncompacted + (match (kdInsert s.keydir k
      ⟨s.current_gen, ((fLookup s.files s.current_gen).getD []).length,
       (recBytes (k, some v)).length⟩).2 with
      | some old => old.len | none => 0)) hinv hwfr
  set s2 : KvStore :=
    { files := fSet s.files s.current_gen
        (((fLookup s.files s.current_gen).getD []) ++ recBytes (k, some v)),
      keydir := (kdInsert s.keydir k
        ⟨s.current_gen, ((fLookup s.files s.current_gen).getD []).length,
         (recBytes (k, some v)).length⟩).1,
      current_gen := s.current_gen,
      uncompacted := s.uncompacted + (match (kdInsert s.keydir k
        ⟨s.current_gen, ((fLookup s.files s.current_gen).getD []).length,
         (recBytes (k, some v)).length⟩).2 with
        | some old => old.len | none => 0) } with hs2
  have hg2 : Good s2 := ⟨frecs', hinv'⟩
  have hset : s.set k v =
      if COMPACTION_THRESHOLD < s2.uncompacted then s2.compact else some s2 := rfl
  by_cases hth : COMPACTION_THRESHOLD < s2.uncompacted
  · obtain ⟨s', hrun, hg'⟩ := good_compact hg2
    exact ⟨s', by rw [hset, if_pos hth, hrun], hg'⟩
  · exact ⟨s2, by rw [hset, if_neg hth], hg2⟩

/-- A `remove` on a good store either fails with `KeyNotFound` (key absent)
or succeeds yielding a good store. -/
theorem good_remove {s : KvStore} (hg : Good s) (k : List Nat) :
    s.remove k = .keyNotFound ∨ (∃ s', s.remove k = .ok s' ∧ Good s') := by
  obtain ⟨frecs, hinv⟩ := hg
  by_cases hmem : (kdLookup s.keydir k).isSome
  · right
    obtain ⟨ep, hep⟩ := Option.isSome_iff_exists.mp hmem
    obtain ⟨v, f, hwfv, _, _, _, _⟩ := good_mem_resolve hinv (k, ep) (kdLookup_mem hep)
    have hwfr : WfRec (k, none) := ⟨hwfv.1, hwfv.2.1, rfl, by simp, by simp⟩
    obtain ⟨frecs', hinv'⟩ := good_append_rec s frecs (k, none)
      (s.uncompacted + (match (kdRemove s.keydir k).2 with
        | some old => old.len | none => 0)) hinv hwfr
    refine ⟨_, ?_, frecs', hinv'⟩
    show s.remove k = _
    rw [KvStore.remove, if_pos hmem]
    rfl
  · left
    rw [KvStore.remove, if_neg hmem]

theorem good_freshStore : Good freshStore := by
  refine ⟨[(1, [])], ?_, ?_, ?_, ?_, ?_⟩
  · exact List.Forall₂.cons ⟨rfl, by simp, by simp⟩ List.Forall₂.nil
  · simp [freshStore]
  · intro g hgm
    simp [freshStore] at hgm
    simp [freshStore, hgm]
  · simp [freshStore]
  · rfl

theorem good_applyOp {s : KvStore} (hg : Good s) (op : Op) (hwf : OpWf op) :
    ∃ s', applyOp s op = some s' ∧ Good s' := by
  cases op with
  | set k v =>
    obtain ⟨h1, h2, h3, h4, h5⟩ := hwf
    obtain ⟨s', hset, hg'⟩ := good_set hg k v h1 h2 h3 h4 h5
    exact ⟨s', by simpa [applyOp] using hset, hg'⟩
  | remove k =>
    rcases good_remove hg k with hnf | ⟨s', hok, hg'⟩
    · exact ⟨s, by simp [applyOp, hnf], hg⟩
    · exact ⟨s', by simp [applyOp, hok], hg'⟩

theorem good_foldOps (ops : List Op) :
    ∀ s, Good s → (∀ op ∈ ops, OpWf op) →
      ∃ s', ops.foldlM applyOp s = some s' ∧ Good s' := by
  induction ops with
  | nil => intro s hg _; exact ⟨s, rfl, hg⟩
  | cons op rest ih =>
    intro s hg hwf
    obtain ⟨s1, h1, hg1⟩ := good_applyOp hg op (hwf op (by simp))
    obtain ⟨s', h', hg'⟩ := ih s1 hg1 (fun q hq => hwf q (by simp [hq]))
    exact ⟨s', by rw [List.foldlM_cons, h1]; simpa using h', hg'⟩

/-- Replaying well-formed mutations on a fresh engine succeeds and yields a
good (recoverable) store. -/
theorem good_runOps (ops : List Op) (hwf : ∀ op ∈ ops, OpWf op) :
    ∃ s, runOps ops = some s ∧ Good s :=
  good_foldOps ops freshStore good_freshStore hwf

/-! ## Remaining support lemmas for the claims -/

theorem fSet_map_fst_of_le {files : Files} {g : Nat}
    (hle : ∀ p ∈ files, p.1 ≤ g) (c : List Nat)
    (hmem : ∃ c0, fLookup files g = some c0) :
    (fSet files g c).map Prod.fst = files.map Prod.fst := by
  induction files with
  | nil => obtain ⟨c0, h0⟩ := hmem; simp [fLookup] at h0
  | cons p rest ih =>
    obtain ⟨g', c'⟩ := p
    obtain ⟨c0, h0⟩ := hmem
    have h2 : ¬ g < g' := by
      have := hle (g', c') (by simp)
      omega
    simp only [fLookup] at h0
    by_cases h1 : g = g'
    · subst h1
      simp [fSet]
    · rw [if_neg h1] at h0
      simp [fSet, h1, h2, ih (fun q hq => hle q (by simp [hq])) ⟨c0, h0⟩]

theorem kdInsert_snd_of_lookup_none {kd : KeyDir} {k : List Nat}
    (h : kdLookup kd k = none) (ep : EntryPos) : (kdInsert kd k ep).2 = none := by
  induction kd with
  | nil => rfl
  | cons p rest ih =>
    obtain ⟨k', ep'⟩ := p
    simp only [kdLookup] at h
    by_cases h1 : k = k'
    · rw [if_pos h1] at h
      exact absurd h (by simp)
    · rw [if_neg h1] at h
      simp only [kdInsert]
      by_cases h2 : keyLt k k' = true
      · simp [h2]
      · simp [h2, h1, ih h]

/-- The explicit result of a successful `remove`. -/
theorem remove_ok_val (s : KvStore) (k : List Nat)
    (hmem : (kdLookup s.keydir k).isSome) :
    s.remove k = .ok
      { files := fSet s.files s.current_gen
          ((fLookup s.files s.current_gen).getD [] ++ (Entry.remove k).as_durable_bytes),
        keydir := (kdRemove s.keydir k).1,
        current_gen := s.current_gen,
        uncompacted := s.uncompacted +
          (match (kdRemove s.keydir k).2 with | some old => old.len | none => 0) } := by
  rw [KvStore.remove, if_pos hmem]
  rfl

/-- A successful `set` leaves `uncompacted` at or below the threshold:
either no compaction was needed, or compaction ran and reset it to 0. -/
theorem set_uncompacted_le (s : KvStore) (k v : List Nat) (s' : KvStore)
    (hset : s.set k v = some s') : s'.uncompacted ≤ COMPACTION_THRESHOLD := by
  set s2 : KvStore :=
    { files := fSet s.files s.current_gen
        (((fLookup s.files s.current_gen).getD []) ++ recBytes (k, some v)),
      keydir := (kdInsert s.keydir k
        ⟨s.current_gen, ((fLookup s.files s.current_gen).getD []).length,
         (recBytes (k, some v)).length⟩).1,
      current_gen := s.current_gen,
      uncompacted := s.uncompacted + (match (kdInsert s.keydir k
        ⟨s.current_gen, ((fLookup s.files s.current_gen).getD []).length,
         (recBytes (k, some v)).length⟩).2 with
        | some old => old.len | none => 0) } with hs2
  have hseteq : s.set k v =
      if COMPACTION_THRESHOLD < s2.uncompacted then s2.compact else some s2 := rfl
  rw [hseteq] at hset
  by_cases hth : COMPACTION_THRESHOLD < s2.uncompacted
  · rw [if_pos hth] at hset
    rw [compact_uncompacted hset]
    simp [COMPACTION_THRESHOLD]
  · rw [if_neg hth] at hset
    rw [← Option.some_inj.mp hset]
    omega

/-- A successful `remove` of a key whose entry has length `L` adds exactly
`L` to `uncompacted` (and nothing for the tombstone it wrote). -/
theorem remove_uncompacted_delta (s : KvStore) (k : List Nat) (ep : EntryPos)
    (hlk : kdLookup s.keydir k = some ep) :
    ∃ s', s.remove k = .ok s' ∧ s'.uncompacted = s.uncompacted + ep.len := by
  have hmem : (kdLookup s.keydir k).isSome := by simp [hlk]
  refine ⟨_, remove_ok_val s k hmem, ?_⟩
  simp [kdRemove_snd, hlk]

/-! # The claims -/

/-- C2 (amended): for every sequence of well-formed mutations — keys and
values valid UTF-8 with `u32` lengths, and every set value non-empty —
replayed on a fresh engine, opening the persisted directory succeeds and
rebuilds exactly the same keydir: the same keys mapped to the same
(generation, offset, length) record locations.  (The non-emptiness proviso is
forced by the counterexample: `set(k, "")` persists as a tombstone.) -/
theorem C2_recovery_equivalence (ops : List Op) (hwf : ∀ op ∈ ops, OpWf op)
    (s : KvStore) (hrun : runOps ops = some s) :
    ∃ s₂, openStore s.files = some s₂ ∧ s₂.keydir = s.keydir := by
  obtain ⟨s0, h0, hg⟩ := good_runOps ops hwf
  rw [hrun] at h0
  cases Option.some_inj.mp h0
  exact openStore_keydir hg

/-- Witness for C2: one concrete run (`set "a" "b"`), its hypotheses
discharged by computation. -/
theorem C2_recovery_equivalence_witness :
    ∃ s₂, openStore ((runOps [Op.set [97] [98]]).getD freshStore).files = some s₂ ∧
      s₂.keydir = ((runOps [Op.set [97] [98]]).getD freshStore).keydir := by
  apply C2_recovery_equivalence [Op.set [97] [98]]
  · intro op hop
    simp only [List.mem_singleton] at hop
    subst hop
    exact ⟨by decide, by decide, by decide, by decide, by decide⟩
  · decide

/-- Counterexample to C2 as stated: after the single operation
`set "a" ""` the live keydir holds key `"a"`, but the persisted record has
`value_size == 0`, so recovery replays it as a tombstone and the reopened
keydir is empty. -/
theorem C2_counterexample :
    ∃ s s₂, runOps [Op.set [97] []] = some s ∧ openStore s.files = some s₂ ∧
      s₂.keydir ≠ s.keydir := by
  refine ⟨(runOps [Op.set [97] []]).getD freshStore,
    (openStore ((runOps [Op.set [97] []]).getD freshStore).files).getD freshStore,
    by decide, by decide, by decide⟩

/-- C1 (amended): on any store whose generation files do not exceed the
current generation and whose current file exists (true of every store the
engine constructs), a successful `set(k, v)` with a well-formed key and a
NON-EMPTY value makes `get(k)` return `Some(v)` — including when the `set`
triggered compaction.  (The non-emptiness proviso is forced by the
counterexample: for `v = ""` the code returns `None`.) -/
theorem C1_set_get_roundtrip (s : KvStore) (k v : List Nat)
    (hk : validUtf8 k = true) (hkl : k.length < 4294967296)
    (hv : validUtf8 v = true) (hvl : v.length < 4294967296) (hvne : v ≠ [])
    (hbound : ∀ g ∈ s.files.map Prod.fst, g ≤ s.current_gen)
    (hcur : ∃ c, fLookup s.files s.current_gen = some c)
    (s' : KvStore) (hset : s.set k v = some s') :
    s'.get k = .ok (some v) := by
  set s2 : KvStore :=
    { files := fSet s.files s.current_gen
        (((fLookup s.files s.current_gen).getD []) ++ recBytes (k, some v)),
      keydir := (kdInsert s.keydir k
        ⟨s.current_gen, ((fLookup s.files s.current_gen).getD []).length,
         (recBytes (k, some v)).length⟩).1,
      current_gen := s.current_gen,
      uncompacted := s.uncompacted + (match (kdInsert s.keydir k
        ⟨s.current_gen, ((fLookup s.files s.current_gen).getD []).length,
         (recBytes (k, some v)).length⟩).2 with
        | some old => old.len | none => 0) } with hs2
  have hseteq : s.set k v =
      if COMPACTION_THRESHOLD < s2.uncompacted then s2.compact else some s2 := rfl
  have hlk2 : kdLookup s2.keydir k =
      some ⟨s.current_gen, ((fLookup s.files s.current_gen).getD []).length,
        (recBytes (k, some v)).length⟩ := kdLookup_insert_self _ _ _
  have hf2 : fLookup s2.files s.current_gen =
      some (((fLookup s.files s.current_gen).getD []) ++ recBytes (k, some v)) :=
    fLookup_fSet_self _ _ _
  have hget2 : s2.get k = .ok (some v) := by
    simp only [KvStore.get, kdLookup_insert_self, fLookup_fSet_self, recBytes,
      extract_full]
    rw [← List.append_nil (Entry.new k (some v)).as_durable_bytes,
      from_reader_durable k (some v) [] hk hkl
        (fun w hw => by cases hw; exact ⟨hv, hvl⟩),
      normValue_eq_of_ne (show some v ≠ some [] by simp [hvne])]
    simp [entry_new_value]
  rw [hseteq] at hset
  by_cases hth : COMPACTION_THRESHOLD < s2.uncompacted
  · rw [if_pos hth] at hset
    have hbound2 : ∀ g ∈ s2.files.map Prod.fst, g ≤ s2.current_gen := by
      have : s2.files.map Prod.fst = s.files.map Prod.fst := by
        dsimp only [hs2]
        exact fSet_map_fst_of_le
          (fun p hp => hbound p.1 (List.mem_map_of_mem _ hp)) _ hcur
      rw [this]
      exact hbound
    rw [compact_get_pre hbound2 hlk2 hf2 hset]
    exact hget2
  · rw [if_neg hth] at hset
    rw [← Option.some_inj.mp hset]
    exact hget2

/-- Witness for C1: `set "a" "b"` on a fresh store, then `get "a"`. -/
theorem C1_set_get_roundtrip_witness :
    ((freshStore.set [97] [98]).getD freshStore).get [97] =
      GetResult.ok (some [98]) := by
  apply C1_set_get_roundtrip freshStore [97] [98] (by decide) (by decide) (by decide)
    (by decide) (by decide) (by decide) ⟨[], by decide⟩
  decide

/-- Counterexample to C1 as stated: `set "a" ""` succeeds, but `get "a"`
returns `None`, not `Some("")` — an empty value is encoded with
`value_size == 0`, which IS the tombstone encoding, so the decoded entry has
no value. -/
theorem C1_counterexample :
    ∃ s', freshStore.set [97] [] = some s' ∧ s'.get [97] = .ok none ∧
      GetResult.ok none ≠ GetResult.ok (some ([] : List Nat)) := by
  refine ⟨(freshStore.set [97] []).getD freshStore, by decide, by decide, by decide⟩

/-- C3 (confirmed): whenever `compact` runs successfully on a store whose
generation files do not exceed the current generation, any key whose keydir
entry points into an existing generation file reads back exactly the same
result after compaction as before — the record bytes are copied verbatim and
the entry repointed at the copy. -/
theorem C3_compact_preserves_get (s s' : KvStore) (k : List Nat) (ep : EntryPos)
    (f : List Nat)
    (hbound : ∀ g ∈ s.files.map Prod.fst, g ≤ s.current_gen)
    (hlk : kdLookup s.keydir k = some ep)
    (hf : fLookup s.files ep.gen = some f)
    (hok : s.compact = some s') :
    s'.get k = s.get k :=
  compact_get_pre hbound hlk hf hok

/-- Witness for C3: compact a store holding two generations of key `"a"` and
read it back. -/
theorem C3_compact_preserves_get_witness :
    ((((freshStore.set [97] [98]).bind (fun s => s.set [97] [99])).getD
        freshStore).compact.getD freshStore).get [97] =
      (((freshStore.set [97] [98]).bind (fun s => s.set [97] [99])).getD
        freshStore).get [97] := by
  apply C3_compact_preserves_get _ _ [97] ⟨1, 14, 14⟩
    (recBytes ([97], some [98]) ++ recBytes ([97], some [99]))
    (by decide) (by decide) (by decide)
  decide

/-- C4 (amended): for every input whose recomputed CRC over the
size-and-payload region differs from the stored big-endian CRC prefix (with
the reads and UTF-8 decoding succeeding), `entry::from_reader` hits the
`assert_eq!` and the process PANICS — it does not return an error value to
the caller; the error type has no `CorruptRecord` variant at all. -/
theorem C4_crc_mismatch_panics (input keyB valB : List Nat) (ks vs : Nat)
    (hks : ks = leToNat ((input.drop 4).take 4))
    (hvs : vs = leToNat ((input.drop 8).take 4))
    (hkeyB : keyB = ((input.drop PREFIX_SIZE).take (ks + vs)).take ks)
    (hvalB : valB = (((input.drop PREFIX_SIZE).take (ks + vs)).drop ks).take vs)
    (h12 : PREFIX_SIZE ≤ input.length)
    (hpay : ks + vs ≤ (input.drop PREFIX_SIZE).length)
    (hku : validUtf8 keyB = true) (hvu : validUtf8 valB = true)
    (hcrc : beToNat (input.take 4) ≠
      generate_crc32 ks vs keyB (if valB.length = 0 then none else some valB)) :
    from_reader input = .assertPanic := by
  subst hks hvs hkeyB hvalB
  simp only [from_reader]
  rw [if_neg (by simp only [PREFIX_SIZE] at *; omega),
    if_neg (by simp only [PREFIX_SIZE] at *; omega),
    if_neg (by simp [hku]), if_neg (by simp [hvu]), if_neg hcrc]

/-- Witness for C4: the record for `set "a" "b"` with its value byte flipped
to `'c'`. -/
theorem C4_crc_mismatch_panics_witness :
    from_reader ((Entry.set [97] [98]).as_durable_bytes.set 13 99) =
      DecodeOutcome.assertPanic := by
  apply C4_crc_mismatch_panics _ _ _ _ _ rfl rfl rfl rfl (by decide) (by decide)
    (by decide) (by decide)
  decide

/-- Counterexample to C4 as stated: on a CRC mismatch the decoder's outcome
is the `assert_eq!` panic — not an error value returned to the caller (and in
particular not a `CorruptRecord` error, a variant `KvsError` does not have).
A store whose persisted record for `"a"` has one flipped byte panics on
`get "a"`. -/
theorem C4_counterexample :
    from_reader ((Entry.set [97] [98]).as_durable_bytes.set 13 99) =
      DecodeOutcome.assertPanic ∧
    DecodeOutcome.assertPanic ≠ DecodeOutcome.ioError ∧
    DecodeOutcome.assertPanic ≠ DecodeOutcome.utf8Error ∧
    ({ files := [(1, (Entry.set [97] [98]).as_durable_bytes.set 13 99)],
       keydir := [([97], ⟨1, 0, 14⟩)], current_gen := 1,
       uncompacted := 0 } : KvStore).get [97] = GetResult.assertPanic := by
  refine ⟨by decide, by decide, by decide, by decide⟩

/-- C5 (confirmed): removing a key that is not in the keydir fails with
`KeyNotFound` and, the store being returned unchanged by the embedding's
`Except`-style result, nothing is written; and after any successful
`remove(k)` — in particular after `set(k, v); remove(k)` — a second
`remove(k)` fails with `KeyNotFound`. -/
theorem C5_remove_missing (s : KvStore) (k : List Nat) (hs : kdSorted s.keydir) :
    (kdLookup s.keydir k = none → s.remove k = .keyNotFound) ∧
    (∀ s', s.remove k = .ok s' → s'.remove k = .keyNotFound) := by
  constructor
  · intro hnone
    rw [KvStore.remove, if_neg (by simp [hnone])]
  · intro s' hok
    by_cases hmem : (kdLookup s.keydir k).isSome
    · have hval : s.remove k = .ok
          { files := fSet s.files s.current_gen
              ((fLookup s.files s.current_gen).getD [] ++ (Entry.remove k).as_durable_bytes),
            keydir := (kdRemove s.keydir k).1,
            current_gen := s.current_gen,
            uncompacted := s.uncompacted +
              (match (kdRemove s.keydir k).2 with | some old => old.len | none => 0) } := by
        rw [KvStore.remove, if_pos hmem]
        rfl
      rw [hval] at hok
      injection hok with h
      rw [← h, KvStore.remove,
        if_neg (by simp [kdLookup_remove_self s.keydir k hs])]
    · rw [KvStore.remove, if_neg hmem] at hok
      exact absurd hok (by simp)

/-- Witness for C5: a fresh store rejects `remove "x"`, and after
`set "a" "b"; remove "a"` the second `remove "a"` also fails. -/
theorem C5_remove_missing_witness :
    freshStore.remove [120] = RemoveResult.keyNotFound ∧
    (removeD (((freshStore.set [97] [98]).getD freshStore).remove [97])
        freshStore).remove [97] = RemoveResult.keyNotFound := by
  constructor
  · exact (C5_remove_missing freshStore [120] (by unfold kdSorted; decide)).1 (by decide)
  · have h2 := (C5_remove_missing ((freshStore.set [97] [98]).getD freshStore) [97]
      (by unfold kdSorted; decide)).2
      (removeD (((freshStore.set [97] [98]).getD freshStore).remove [97]) freshStore)
    exact h2 (by decide)

/-- C6 (amended): after a successful `set` the counter never exceeds the
1 MiB threshold — `set` compacts (resetting it to 0) exactly when the
mutation left it above `COMPACTION_THRESHOLD`.  `remove`, however, performs
no compaction check at all: it unconditionally adds the removed entry's
length, so a successful `remove` can leave `uncompacted` above the
threshold.  (The claim's "set or remove" is refuted by the counterexample.) -/
theorem C6_uncompacted_after_mutation (s : KvStore) :
    (∀ k v s', s.set k v = some s' → s'.uncompacted ≤ COMPACTION_THRESHOLD) ∧
    (∀ k s', s.remove k = .ok s' →
      ∃ ep, kdLookup s.keydir k = some ep ∧
        s'.uncompacted = s.uncompacted + ep.len) := by
  constructor
  · intro k v s' hset
    exact set_uncompacted_le s k v s' hset
  · intro k s' hok
    by_cases hmem : (kdLookup s.keydir k).isSome
    · obtain ⟨ep, hep⟩ := Option.isSome_iff_exists.mp hmem
      obtain ⟨s'', hok', hu⟩ := remove_uncompacted_delta s k ep hep
      rw [hok'] at hok
      injection hok with h
      exact ⟨ep, hep, h ▸ hu⟩
    · rw [KvStore.remove, if_neg hmem] at hok
      exact absurd hok (by simp)

/-- Witness for C6: a fresh `set` stays at the threshold; a `remove` adds the
removed entry's length (14 here). -/
theorem C6_uncompacted_after_mutation_witness :
    ((freshStore.set [97] [98]).getD freshStore).uncompacted ≤ COMPACTION_THRESHOLD ∧
    (removeD (((freshStore.set [97] [98]).getD freshStore).remove [97])
        freshStore).uncompacted =
      ((freshStore.set [97] [98]).getD freshStore).uncompacted + 14 := by
  constructor
  · exact (C6_uncompacted_after_mutation freshStore).1 [97] [98] _ (by decide)
  · obtain ⟨ep, hep, hu⟩ :=
      (C6_uncompacted_after_mutation ((freshStore.set [97] [98]).getD freshStore)).2
        [97] (removeD (((freshStore.set [97] [98]).getD freshStore).remove [97])
          freshStore) (by decide)
    have hepv : ep = ⟨1, 0, 14⟩ := by
      rw [show kdLookup ((freshStore.set [97] [98]).getD freshStore).keydir [97] =
        some ⟨1, 0, 14⟩ from by decide] at hep
      exact (Option.some_inj.mp hep).symm
    rw [hu, hepv]

/-- Counterexample to C6 as stated: on `C6state` (a store sitting exactly at
the 1 MiB threshold, where no `set` would have compacted), `remove "a"`
succeeds and returns with `uncompacted = 1048590 > 1048576`: `remove` never
triggers compaction. -/
theorem C6_counterexample :
    C6state.remove [97] ≠ RemoveResult.keyNotFound ∧
    (removeD (C6state.remove [97]) freshStore).uncompacted = 1048590 ∧
    COMPACTION_THRESHOLD < 1048590 := by
  refine ⟨by decide, by decide, by decide⟩

/-- C7 (amended): removing a present key `k` whose keydir entry has length
`L` succeeds and increases `uncompacted` by exactly `L`.  The size of the
appended tombstone record (`12 + key_size` bytes) is NOT added at write time
— the source counts tombstones against `uncompacted` only during recovery
(`load`), as §9 of the spec itself observes. -/
theorem C7_remove_uncompacted (s : KvStore) (k : List Nat) (ep : EntryPos)
    (hlk : kdLookup s.keydir k = some ep) :
    ∃ s', s.remove k = .ok s' ∧ s'.uncompacted = s.uncompacted + ep.len :=
  remove_uncompacted_delta s k ep hlk

/-- Witness for C7: removing `"a"` (entry length 14) from the store obtained
by `set "a" "b"` on a fresh store takes `uncompacted` from 0 to 14. -/
theorem C7_remove_uncompacted_witness :
    ∃ s', ((freshStore.set [97] [98]).getD freshStore).remove [97] = .ok s' ∧
      s'.uncompacted = ((freshStore.set [97] [98]).getD freshStore).uncompacted + 14 := by
  exact C7_remove_uncompacted ((freshStore.set [97] [98]).getD freshStore) [97]
    ⟨1, 0, 14⟩ (by decide)

/-- Counterexample to C7 as stated: removing `"a"` (record length `L = 14`,
`key_size = 1`) from the one-key store leaves `uncompacted = 14` — exactly
`L` — not `L + (12 + key_size) = 27` as the claim requires. -/
theorem C7_counterexample :
    ((freshStore.set [97] [98]).getD freshStore).uncompacted = 0 ∧
    (removeD (((freshStore.set [97] [98]).getD freshStore).remove [97])
        freshStore).uncompacted = 14 ∧
    (14 : Nat) ≠ 0 + 14 + (12 + 1) := by
  refine ⟨by decide, by decide, by decide⟩

/-- C8 (amended): the engine does NOT reject the empty key.  On any store
with no binding for `""` and `uncompacted` at or below the threshold,
`set("", v)` succeeds, appends a record (its `key_size` is 0), and inserts a
keydir entry for `""` at the end of the current file. -/
theorem C8_empty_key_accepted (s : KvStore) (v : List Nat)
    (hnone : kdLookup s.keydir [] = none)
    (hth : s.uncompacted ≤ COMPACTION_THRESHOLD) :
    ∃ s', s.set [] v = some s' ∧
      kdLookup s'.keydir [] = some ⟨s.current_gen,
        ((fLookup s.files s.current_gen).getD []).length,
        (recBytes ([], some v)).length⟩ := by
  set s2 : KvStore :=
    { files := fSet s.files s.current_gen
        (((fLookup s.files s.current_gen).getD []) ++ recBytes ([], some v)),
      keydir := (kdInsert s.keydir []
        ⟨s.current_gen, ((fLookup s.files s.current_gen).getD []).length,
         (recBytes ([], some v)).length⟩).1,
      current_gen := s.current_gen,
      uncompacted := s.uncompacted + (match (kdInsert s.keydir []
        ⟨s.current_gen, ((fLookup s.files s.current_gen).getD []).length,
         (recBytes ([], some v)).length⟩).2 with
        | some old => old.len | none => 0) } with hs2
  have hseteq : s.set [] v =
      if COMPACTION_THRESHOLD < s2.uncompacted then s2.compact else some s2 := rfl
  have hsnd := kdInsert_snd_of_lookup_none hnone
    (⟨s.current_gen, ((fLookup s.files s.current_gen).getD []).length,
      (recBytes ([], some v)).length⟩ : EntryPos)
  have hunc : s2.uncompacted = s.uncompacted := by
    dsimp only [hs2]
    rw [hsnd]
    simp
  refine ⟨s2, ?_, ?_⟩
  · rw [hseteq, if_neg (by omega)]
  · exact kdLookup_insert_self _ _ _

/-- Witness for C8: `set "" "x"` on a fresh store. -/
theorem C8_empty_key_accepted_witness :
    ∃ s', freshStore.set [] [120] = some s' ∧
      kdLookup s'.keydir [] = some ⟨1, 0, 13⟩ := by
  exact C8_empty_key_accepted freshStore [120] (by decide) (by decide)

/-- Counterexample to C8 as stated: `set("", "x")` on a fresh store succeeds
and inserts a keydir entry for the empty key (and `get ""` then returns the
value) — the engine has no empty-key check. -/
theorem C8_counterexample :
    ∃ s', freshStore.set [] [120] = some s' ∧ kdLookup s'.keydir [] ≠ none ∧
      s'.get [] = GetResult.ok (some [120]) := by
  refine ⟨(freshStore.set [] [120]).getD freshStore, by decide, by decide, by decide⟩

/-! ## File-name parsing lemmas for C9 -/

theorem extAux_of_no_dot {l : List Char} (h : ∀ c ∈ l, c ≠ '.') :
    extAux l = none := by
  induction l with
  | nil => rfl
  | cons c rest ih =>
    simp only [extAux, ih (fun c' hc' => h c' (by simp [hc']))]
    rw [if_neg (h c (by simp))]

theorem extAux_append_dot (t' s : List Char) (ht : ∀ c ∈ t', c ≠ '.')
    (hs : extAux s = none) : extAux (t' ++ '.' :: s) = some s := by
  induction t' with
  | nil =>
    simp [extAux, hs]
  | cons c rest ih =>
    simp only [List.cons_append, extAux, List.append_eq,
      ih (fun c' hc' => ht c' (by simp [hc']))]

theorem stripLogsRev_ne {l : List Char}
    (h : ∀ rest, l ≠ 'g' :: 'o' :: 'l' :: '.' :: rest) : stripLogsRev l = l := by
  unfold stripLogsRev
  split
  · next rest => exact absurd rfl (h rest)
  · rfl

theorem trimEnd_digits (t : List Char) (ht : ∀ c ∈ t, '0' ≤ c ∧ c ≤ '9') :
    trimEndDotLog (t ++ ['.', 'l', 'o', 'g']) = t := by
  have hrev : (t ++ ['.', 'l', 'o', 'g']).reverse =
      'g' :: 'o' :: 'l' :: '.' :: t.reverse := by
    rw [List.reverse_append]
    rfl
  have hstep : stripLogsRev ('g' :: 'o' :: 'l' :: '.' :: t.reverse) =
      stripLogsRev t.reverse := rfl
  have hfix : stripLogsRev t.reverse = t.reverse := by
    apply stripLogsRev_ne
    intro rest hbad
    have hg : 'g' ∈ t := by
      rw [← List.mem_reverse, hbad]
      simp
    have := ht 'g' hg
    exact absurd this.2 (by decide)
  rw [trimEndDotLog, hrev, hstep, hfix, List.reverse_reverse]

theorem parseU64_digits (t : List Char) (hne : t ≠ [])
    (ht : ∀ c ∈ t, '0' ≤ c ∧ c ≤ '9') {g : Nat}
    (hparse : parseDigitsAux t 0 = some g) (hlt : g < 18446744073709551616) :
    parseU64 t = some g := by
  cases t with
  | nil => exact absurd rfl hne
  | cons c t' =>
    have hc : c ≠ '+' := by
      have := ht c (by simp)
      intro he
      subst he
      exact absurd this.1 (by decide)
    have hbody : (match c :: t' with | '+' :: rest => rest | _ => c :: t') = c :: t' := by
      split
      · next rest heq =>
        injection heq with h1 h2
        exact absurd h1 hc
      · rfl
    simp only [parseU64, hbody, hparse]
    rw [if_pos hlt]

/-- C9 (corrected, amended): the generation listing includes every file whose
name matches the spec's `^(\d+)\.log$` (with a value below `2 ^ 64`) under
its decimal generation, and the returned list is ascending.  But inclusion is
NOT limited to those names: `sorted_gen_list` keeps any name whose extension
is `log` and whose remainder, after stripping every trailing `".log"`, parses
as a `u64` — so names such as `"12.log.log"` and `"+5.log"` are also
accepted (see the counterexample). -/
theorem C9_gen_listing :
    (∀ (name : List Char) (g : Nat), specGenName name = some g →
      g < 18446744073709551616 → parseGenName name = some g) ∧
    (∀ names : List (List Char), List.Pairwise (· ≤ ·) (sorted_gen_list names)) := by
  constructor
  · intro name g hspec hlt
    simp only [specGenName] at hspec
    split at hspec
    case isFalse => exact absurd hspec (by simp)
    case isTrue hsuf =>
      obtain ⟨t, ht⟩ : ∃ t, name = t ++ ['.', 'l', 'o', 'g'] := by
        obtain ⟨t, ht⟩ := List.isSuffixOf_iff_suffix.mp hsuf
        exact ⟨t, ht.symm⟩
      subst ht
      have hstem : (t ++ ['.', 'l', 'o', 'g']).take
          ((t ++ ['.', 'l', 'o', 'g']).length - 4) = t := by
        rw [List.length_append]
        simp only [List.length_cons, List.length_nil]
        rw [show t.length + 4 - 4 = t.length by omega]
        exact List.take_left' rfl
      rw [hstem] at hspec
      split at hspec
      case isFalse => exact absurd hspec (by simp)
      case isTrue hcond =>
        obtain ⟨hne, hall⟩ := hcond
        have hdig : ∀ c ∈ t, '0' ≤ c ∧ c ≤ '9' := by
          intro c hc
          have := List.all_eq_true.mp hall c hc
          exact of_decide_eq_true this
        cases t with
        | nil => exact absurd rfl hne
        | cons c t' =>
          have hext : extension? ((c :: t') ++ ['.', 'l', 'o', 'g']) =
              some ['l', 'o', 'g'] := by
            simp only [List.cons_append, extension?]
            exact extAux_append_dot t' ['l', 'o', 'g']
              (fun c' hc' => by
                have := hdig c' (by simp [hc'])
                intro he
                subst he
                exact absurd this.1 (by decide))
              rfl
          rw [parseGenName, if_pos hext, trimEnd_digits (c :: t') hdig]
          exact parseU64_digits (c :: t') (by simp) hdig hspec hlt
  · intro names
    exact sortNat_sorted _

/-- Witness for C9: `"12.log"` is listed as generation 12, and a concrete
listing comes out ascending. -/
theorem C9_gen_listing_witness :
    parseGenName ("12.log".toList) = some 12 ∧
    List.Pairwise (· ≤ ·) (sorted_gen_list ["12.log".toList, "3.log".toList]) := by
  constructor
  · exact C9_gen_listing.1 ("12.log".toList) 12 (by decide) (by decide)
  · exact C9_gen_listing.2 _

/-- Counterexample to C9 as stated: `"12.log.log"` and `"+5.log"` do not
match `^(\d+)\.log$`, yet `sorted_gen_list` includes them (as generations 12
and 5) instead of ignoring them — `trim_end_matches(".log")` strips repeated
suffixes and `str::parse::<u64>` accepts a leading `'+'`. -/
theorem C9_counterexample :
    specGenName ("12.log.log".toList) = none ∧
    specGenName ("+5.log".toList) = none ∧
    sorted_gen_list ["12.log.log".toList, "+5.log".toList] = [5, 12] := by
  refine ⟨by decide, by decide, by decide⟩

/-- C10 (confirmed): the GET response encoding is not injective.  A stored
value `"-1"` is sent as the same bytes as the absent-key sentinel, and the
client decodes both as `Ok(None)`; any stored value beginning with `'!'`
(CR/LF-free, as the protocol requires) is decoded by the client as an error
carrying that value as its message. -/
theorem C10_get_response_ambiguity :
    serve_get_response (some ['-', '1']) = serve_get_response none ∧
    response_from_reader (serve_get_response (some ['-', '1'])) = .ok none ∧
    (∀ v : List Char, (∀ c ∈ v, c ≠ '\n') →
      response_from_reader (serve_get_response (some ('!' :: v))) = .err ('!' :: v)) := by
  refine ⟨rfl, by decide, ?_⟩
  intro v hv
  have htakev : (('!' :: v)).takeWhile (fun c => decide (c ≠ '\n')) = '!' :: v := by
    rw [List.takeWhile_eq_self_iff]
    intro c hc
    rcases List.mem_cons.mp hc with h | h
    · subst h; decide
    · simp [hv c h]
  have htake : (('!' :: v) ++ ['\r', '\n']).takeWhile (fun c => decide (c ≠ '\n')) =
      ('!' :: v) ++ ['\r'] := by
    rw [List.takeWhile_append, if_pos (by rw [htakev])]
    rfl
  have hlines : linesNext (('!' :: v) ++ ['\r', '\n']) = some ('!' :: v) := by
    simp only [linesNext, htake]
    rw [if_neg (by simp)]
    rw [if_pos ⟨by simp, List.getLast?_concat _⟩]
    rw [List.dropLast_concat]
  rw [show serve_get_response (some ('!' :: v)) = ('!' :: v) ++ ['\r', '\n'] from rfl]
  simp only [response_from_reader, hlines]
  simp

/-- Witness for C10: the value `"!x"`. -/
theorem C10_get_response_ambiguity_witness :
    response_from_reader (serve_get_response (some ['!', 'x'])) =
      RespResult.err ['!', 'x'] := by
  exact C10_get_response_ambiguity.2.2 ['x'] (by decide)

end Kvs
